import Mathlib

/-!
# Verification of the `RangeMap` stabbing-query structure

This file gives a shallow embedding of the C++ class `RangeMap<T>`
(`RangeMap.h`) over the integral domain `Int`, with explicit parameters
`MINV`/`MAXV` standing for `std::numeric_limits<T>::min()/max()` (resp. the
infinity sentinels), and proves/refutes the specification claims about it.

Machine values of the domain type `T` are modelled as `Int` restricted to
`[MINV, MAXV]` where a claim needs it; all operations of the source are pure
comparisons and copies, so no wrap-around modelling is required.  `size_t`
indices are modelled as `ℕ`.
-/

namespace RangeMap

/-- The state of a `RangeMap` object: the breakpoint table `Tab` and the
parallel active-set table `IList` (the `Empty` member is the constant `[]`). -/
structure RM where
  Tab : List Int
  IList : List (List ℕ)
deriving DecidableEq, Repr

/-- A default-constructed `RangeMap`: both vectors are empty. -/
def rmEmpty : RM := ⟨[], []⟩

/-- `std::set<size_t>::insert`: the active set is an ordered set of interval
indices, modelled as a strictly ascending list; inserting an element already
present is a no-op. -/
def asInsert (x : ℕ) : List ℕ → List ℕ
  | [] => [x]
  | y :: t => if x < y then x :: y :: t else if x = y then y :: t else y :: asInsert x t

/-- `std::set<size_t>::erase`: removes the element if present (on a strictly
ascending list the element occurs at most once). -/
def asErase (x : ℕ) : List ℕ → List ℕ
  | [] => []
  | y :: t => if x = y then t else y :: asErase x t

/-- The next value merged into the table (line 70 of the source):
`((i1 >= NF) || ((i2 < NF) && (S[SS[i1]] >= E[SE[i2]]))) ? E[SE[i2]] : S[SS[i1]]`,
phrased on the remaining suffixes of the two argsorted index lists.
(The `[], []` case is unreachable: the sweep loop has already stopped then.) -/
def nextV (S E : ℕ → Int) : List ℕ → List ℕ → Int
  | ss, [] => S (ss.headD 0)
  | [], j :: _ => E j
  | i :: _, j :: _ => if E j ≤ S i then E j else S i

/-- The sweep loop of `Build` (lines 68–81 of the source).  `ss`/`se` are the
remaining suffixes of the start/end argsorted index lists, `as` is the active
set (`std::set<size_t> AS`, whose ascending iteration order is the list
order).  Each iteration: pick the next value `v`, insert all indices whose
start equals `v`, then erase all indices whose end equals `v`, then record
`(v, snapshot of AS)`.

The loop runs until both lists are exhausted; since every iteration consumes
at least one index, `fuel := ss.length + se.length` iterations always
suffice, which makes the recursion structural. -/
def sweepAux (S E : ℕ → Int) : ℕ → List ℕ → List ℕ → List ℕ → List (Int × List ℕ)
  | 0, _, _, _ => []
  | _ + 1, [], [], _ => []
  | fuel + 1, ss, se, as =>
    let v := nextV S E ss se
    let as' := ((se.takeWhile fun j => E j = v).foldl (fun a j => asErase j a)
      ((ss.takeWhile fun i => S i = v).foldl (fun a i => asInsert i a) as))
    (v, as') ::
      sweepAux S E fuel (ss.dropWhile fun i => S i = v) (se.dropWhile fun j => E j = v) as'

/-- The filtered index list (lines 43–48): indices `i < N` with `S[i] != E[i]`,
in their original order.  Its length is `NF`. -/
def filteredIdx (S E : ℕ → Int) (N : ℕ) : List ℕ :=
  (List.range N).filter fun i => S i ≠ E i

/-- Condition of line 64: `0 == NF || S[SS[0]] > MINV`
(prepend a `MINV` breakpoint mapped to the empty set). -/
def preFlag (MINV : Int) (S : ℕ → Int) : List ℕ → Bool
  | [] => true
  | i :: _ => decide (MINV < S i)

/-- Condition of line 83: `0 == NF || E[SE[NF-1]] < MAXV`
(append a `MAXV` breakpoint mapped to the empty set). -/
def postFlag (MAXV : Int) (E : ℕ → Int) (se : List ℕ) : Bool :=
  match se.getLast? with
  | none => true
  | some j => decide (E j < MAXV)

/-- The table-construction part of `Build` (lines 54–86), parameterised by
the two argsorted index lists `ss` (by ascending start) and `se` (by
ascending end).  `std::sort` leaves the relative order of tied keys
unspecified; theorem `build_tie_order_independent` shows the result does not
depend on that choice. -/
def buildWith (MINV MAXV : Int) (S E : ℕ → Int) (ss se : List ℕ) : RM :=
  let body := sweepAux S E (ss.length + se.length) ss se []
  { Tab := (if preFlag MINV S ss then [MINV] else []) ++ body.map Prod.fst ++
      (if postFlag MAXV E se then [MAXV] else [])
    IList := (if preFlag MINV S ss then [([] : List ℕ)] else []) ++ body.map Prod.snd ++
      (if postFlag MAXV E se then [([] : List ℕ)] else []) }

/-- `Build(S, E, N)` past the null/zero guard (lines 38–86): filter the
degenerate intervals, argsort the filtered indices by start value and by end
value, and run the sweep.  The sort is modelled by `List.insertionSort`,
which produces a permutation sorted by the same key as `std::sort`'s
comparator. -/
def buildCore (MINV MAXV : Int) (S E : ℕ → Int) (N : ℕ) : RM :=
  let F := filteredIdx S E N
  buildWith MINV MAXV S E
    (List.insertionSort (fun i j => S i ≤ S j) F)
    (List.insertionSort (fun i j => E i ≤ E j) F)

/-- Full `Build` (lines 35–87) as a state transition: with a null array
pointer or `N == 0` it returns early (line 36–37), leaving the previous
state untouched; otherwise it rebuilds both tables from scratch. -/
def rmBuildFrom (MINV MAXV : Int) (prev : RM) (S? E? : Option (ℕ → Int)) (N : ℕ) : RM :=
  match S?, E? with
  | some S, some E => if N = 0 then prev else buildCore MINV MAXV S E N
  | _, _ => prev

/-- `Build` called with non-null arrays on a default-constructed object. -/
def rmBuild (MINV MAXV : Int) (S E : ℕ → Int) (N : ℕ) : RM :=
  rmBuildFrom MINV MAXV rmEmpty (some S) (some E) N

/-- `Query(p)` (lines 92–96): `lower_bound` over `Tab` (the first index `k`
with `p ≤ Tab[k]`, modelled by `findIdx`), then
`return (It != Tab.end()) ? IList[k - (*It > p)] : Empty`.
When `k = 0` and `Tab[0] > p` the C++ access `IList[-1]` would be out of
bounds; `ℕ` subtraction makes the model read `IList[0]` there instead, and
theorem `query_access_in_bounds` shows that situation is unreachable for
representable query points. -/
def queryTab (tab : List Int) (il : List (List ℕ)) (p : Int) : List ℕ :=
  let k := tab.findIdx fun x => decide (p ≤ x)
  if k < tab.length then
    (if p < tab.getD k 0 then il.getD (k - 1) [] else il.getD k [])
  else []

/-- `Query` on a `RangeMap` state. -/
def RM.Query (rm : RM) (p : Int) : List ℕ :=
  queryTab rm.Tab rm.IList p

/-- `std::numeric_limits<int>::min()` — the `RangeMap<int>` instantiation. -/
def intMinV : Int := -2147483648

/-- `std::numeric_limits<int>::max()`. -/
def intMaxV : Int := 2147483647

/-- The brute-force oracle (`SlowCheck` in `RMTest.cpp`): the set of indices
`i < N` with `S[i] <= p < E[i]`. -/
def bruteSet (S E : ℕ → Int) (N : ℕ) (p : Int) : Finset ℕ :=
  (Finset.range N).filter fun i => S i ≤ p ∧ p < E i

/-! ## Ordered-set operations: basic lemmas -/

theorem mem_asInsert (x a : ℕ) : ∀ l : List ℕ, a ∈ asInsert x l ↔ a = x ∨ a ∈ l := by
  intro l
  induction l with
  | nil => simp [asInsert]
  | cons y t ih =>
    rw [asInsert]
    split
    · simp [List.mem_cons]
    · split
      · rename_i h1 h2
        subst h2
        simp only [List.mem_cons]
        tauto
      · simp only [List.mem_cons, ih]; tauto

theorem sorted_asInsert (x : ℕ) : ∀ {l : List ℕ}, l.Sorted (· < ·) →
    (asInsert x l).Sorted (· < ·) := by
  intro l
  induction l with
  | nil => intro _; simp [asInsert]
  | cons y t ih =>
    intro h
    obtain ⟨hy, ht⟩ := List.sorted_cons.mp h
    rw [asInsert]
    split
    · rename_i hxy
      refine List.sorted_cons.mpr ⟨?_, h⟩
      intro b hb
      rcases List.mem_cons.mp hb with rfl | hb
      · exact hxy
      · exact lt_trans hxy (hy b hb)
    · split
      · exact h
      · rename_i h1 h2
        have hyx : y < x := by omega
        refine List.sorted_cons.mpr ⟨?_, ih ht⟩
        intro b hb
        rcases (mem_asInsert x b t).mp hb with rfl | hb
        · exact hyx
        · exact hy b hb

theorem asErase_sublist (x : ℕ) : ∀ l : List ℕ, (asErase x l).Sublist l := by
  intro l
  induction l with
  | nil => simp [asErase]
  | cons y t ih =>
    rw [asErase]
    split
    · exact (List.sublist_cons_self y t)
    · exact ih.cons₂ y

theorem sorted_asErase (x : ℕ) {l : List ℕ} (h : l.Sorted (· < ·)) :
    (asErase x l).Sorted (· < ·) :=
  h.sublist (asErase_sublist x l)

theorem mem_asErase (x a : ℕ) : ∀ {l : List ℕ}, l.Nodup →
    (a ∈ asErase x l ↔ a ∈ l ∧ a ≠ x) := by
  intro l
  induction l with
  | nil => simp [asErase]
  | cons y t ih =>
    intro hnd
    obtain ⟨hy, ht⟩ := List.nodup_cons.mp hnd
    rw [asErase]
    split
    · subst_vars
      simp only [List.mem_cons]
      constructor
      · intro hat
        exact ⟨Or.inr hat, fun hay => hy (hay ▸ hat)⟩
      · rintro ⟨rfl | hat, hne⟩
        · exact absurd rfl hne
        · exact hat
    · rename_i hxy
      simp only [List.mem_cons, ih ht]
      constructor
      · rintro (rfl | ⟨hat, hne⟩)
        · exact ⟨Or.inl rfl, fun h => hxy h.symm⟩
        · exact ⟨Or.inr hat, hne⟩
      · rintro ⟨rfl | hat, hne⟩
        · exact Or.inl rfl
        · exact Or.inr ⟨hat, hne⟩

/-! ## Folded insertions and erasures (the two inner `while` loops) -/

theorem mem_foldl_asInsert (xs : List ℕ) :
    ∀ (l : List ℕ) (a : ℕ), a ∈ xs.foldl (fun acc i => asInsert i acc) l ↔ a ∈ xs ∨ a ∈ l := by
  induction xs with
  | nil => simp
  | cons x xs ih =>
    intro l a
    simp only [List.foldl_cons, ih, mem_asInsert, List.mem_cons]
    tauto

theorem sorted_foldl_asInsert (xs : List ℕ) :
    ∀ {l : List ℕ}, l.Sorted (· < ·) →
      (xs.foldl (fun acc i => asInsert i acc) l).Sorted (· < ·) := by
  induction xs with
  | nil => intro l h; exact h
  | cons x xs ih =>
    intro l h
    exact ih (sorted_asInsert x h)

theorem sorted_foldl_asErase (xs : List ℕ) :
    ∀ {l : List ℕ}, l.Sorted (· < ·) →
      (xs.foldl (fun acc j => asErase j acc) l).Sorted (· < ·) := by
  induction xs with
  | nil => intro l h; exact h
  | cons x xs ih =>
    intro l h
    exact ih (sorted_asErase x h)

theorem mem_foldl_asErase (xs : List ℕ) :
    ∀ {l : List ℕ}, l.Sorted (· < ·) →
      ∀ a, a ∈ xs.foldl (fun acc j => asErase j acc) l ↔ a ∈ l ∧ a ∉ xs := by
  induction xs with
  | nil => simp
  | cons x xs ih =>
    intro l hl a
    have hnd : l.Nodup := hl.nodup
    simp only [List.foldl_cons, ih (sorted_asErase x hl), mem_asErase x a hnd, List.mem_cons]
    tauto

/-- A strictly ascending list of naturals with the same members as a `Finset`
is that finset's ascending sort; this identifies the concrete active-set list
with its set-theoretic description. -/
theorem eq_sort_of_sorted_of_mem {l : List ℕ} {s : Finset ℕ} (hs : l.Sorted (· < ·))
    (hm : ∀ a, a ∈ l ↔ a ∈ s) : l = s.sort (· ≤ ·) := by
  refine List.eq_of_perm_of_sorted ?_ (hs.imp le_of_lt) (Finset.sort_sorted _ s)
  refine (List.perm_ext_iff_of_nodup hs.nodup (Finset.sort_nodup _ s)).mpr ?_
  intro a
  rw [hm a, Finset.mem_sort]

/-! ## `takeWhile`/`dropWhile` on key-sorted index lists -/

theorem mem_takeWhile_key (key : ℕ → Int) (v : Int) :
    ∀ (l : List ℕ), l.Sorted (fun a b => key a ≤ key b) → (∀ x ∈ l, v ≤ key x) →
      ∀ a, (a ∈ l.takeWhile (fun i => key i = v) ↔ a ∈ l ∧ key a = v) := by
  intro l
  induction l with
  | nil => simp
  | cons y t ih =>
    intro hs hlb a
    obtain ⟨hy, ht⟩ := List.sorted_cons.mp hs
    have hlbt : ∀ x ∈ t, v ≤ key x := fun x hx => hlb x (List.mem_cons_of_mem y hx)
    by_cases h : key y = v
    · rw [List.takeWhile_cons_of_pos (by simpa using h)]
      simp only [List.mem_cons, ih ht hlbt]
      constructor
      · rintro (rfl | ⟨hat, hkey⟩)
        · exact ⟨Or.inl rfl, h⟩
        · exact ⟨Or.inr hat, hkey⟩
      · rintro ⟨rfl | hat, hkey⟩
        · exact Or.inl rfl
        · exact Or.inr ⟨hat, hkey⟩
    · rw [List.takeWhile_cons_of_neg (by simpa using h)]
      simp only [List.not_mem_nil, false_iff]
      rintro ⟨hmem, hkey⟩
      have hvy : v < key y := lt_of_le_of_ne (hlb y (List.mem_cons_self y t)) (Ne.symm h)
      rcases List.mem_cons.mp hmem with rfl | hat
      · exact h hkey
      · exact absurd hkey (by have := hy a hat; omega)

theorem mem_dropWhile_key (key : ℕ → Int) (v : Int) :
    ∀ (l : List ℕ), l.Sorted (fun a b => key a ≤ key b) → (∀ x ∈ l, v ≤ key x) →
      ∀ a, (a ∈ l.dropWhile (fun i => key i = v) ↔ a ∈ l ∧ v < key a) := by
  intro l
  induction l with
  | nil => simp
  | cons y t ih =>
    intro hs hlb a
    obtain ⟨hy, ht⟩ := List.sorted_cons.mp hs
    have hlbt : ∀ x ∈ t, v ≤ key x := fun x hx => hlb x (List.mem_cons_of_mem y hx)
    by_cases h : key y = v
    · rw [List.dropWhile_cons_of_pos (by simpa using h)]
      simp only [ih ht hlbt, List.mem_cons]
      constructor
      · rintro ⟨hat, hlt⟩
        exact ⟨Or.inr hat, hlt⟩
      · rintro ⟨rfl | hat, hlt⟩
        · exact absurd h (by omega)
        · exact ⟨hat, hlt⟩
    · rw [List.dropWhile_cons_of_neg (by simpa using h)]
      have hvy : v < key y := lt_of_le_of_ne (hlb y (List.mem_cons_self y t)) (Ne.symm h)
      constructor
      · intro hmem
        refine ⟨hmem, ?_⟩
        rcases List.mem_cons.mp hmem with rfl | hat
        · exact hvy
        · have := hy a hat; omega
      · exact fun h => h.1

/-! ## Generic facts about sorted lists, `getD` and `Forall₂` -/

theorem sorted_getD_mono {l : List Int} (h : l.Sorted (· ≤ ·)) {i j : ℕ} (hij : i ≤ j)
    (hj : j < l.length) (d : Int) : l.getD i d ≤ l.getD j d := by
  rcases eq_or_lt_of_le hij with rfl | hlt
  · exact le_refl _
  · rw [List.getD_eq_getElem l d (lt_trans hlt hj), List.getD_eq_getElem l d hj]
    exact List.pairwise_iff_get.mp h ⟨i, lt_trans hlt hj⟩ ⟨j, hj⟩ hlt

theorem sorted_getD_zero_le {l : List Int} (h : l.Sorted (· ≤ ·)) {w : Int} (hw : w ∈ l)
    (d : Int) : l.getD 0 d ≤ w := by
  obtain ⟨n, hn, rfl⟩ := List.getElem_of_mem hw
  rw [← List.getD_eq_getElem l d hn]
  exact sorted_getD_mono h (Nat.zero_le n) hn d

theorem le_sorted_getD_last {l : List Int} (h : l.Sorted (· ≤ ·)) {w : Int} (hw : w ∈ l)
    (d : Int) : w ≤ l.getD (l.length - 1) d := by
  obtain ⟨n, hn, rfl⟩ := List.getElem_of_mem hw
  rw [← List.getD_eq_getElem l d hn]
  exact sorted_getD_mono h (by omega) (by omega) d

theorem sorted_lt_of_le_of_nodup {l : List Int} (h : l.Sorted (· ≤ ·)) (hnd : l.Nodup) :
    l.Sorted (· < ·) :=
  (h.and hnd).imp fun hab => lt_of_le_of_ne hab.1 hab.2

/-- Adjacent entries of a strictly sorted list have no list element strictly
between them. -/
theorem sorted_chain'_gap {l : List Int} (h : l.Sorted (· < ·)) :
    l.Chain' (fun v w => ∀ u ∈ l, ¬(v < u ∧ u < w)) := by
  rw [List.chain'_iff_get]
  intro i hi u hu
  obtain ⟨m, hm, rfl⟩ := List.getElem_of_mem hu
  rintro ⟨h1, h2⟩
  simp only [List.get_eq_getElem] at h1 h2
  rcases Nat.lt_or_ge m (i + 1) with hcase | hcase
  · rcases Nat.lt_or_ge m i with hc2 | hc2
    · exact absurd (List.pairwise_iff_get.mp h ⟨m, hm⟩ ⟨i, by omega⟩ hc2) (by
        simp only [List.get_eq_getElem]; omega)
    · have : m = i := by omega
      subst this; omega
  · rcases Nat.lt_or_ge (i + 1) m with hc2 | hc2
    · exact absurd (List.pairwise_iff_get.mp h ⟨i + 1, by omega⟩ ⟨m, hm⟩ hc2) (by
        simp only [List.get_eq_getElem]; omega)
    · have : m = i + 1 := by omega
      subst this; omega

theorem forall₂_map_self {α β : Type} {R : α → β → Prop} (g : α → β) :
    ∀ l : List α, (∀ a ∈ l, R a (g a)) → List.Forall₂ R l (l.map g) := by
  intro l
  induction l with
  | nil => intro _; simp
  | cons a t ih =>
    intro h
    exact List.Forall₂.cons (h a (List.mem_cons_self a t))
      (ih fun b hb => h b (List.mem_cons_of_mem a hb))

theorem forall₂_append_parts {α β : Type} {R : α → β → Prop} :
    ∀ {l₁ l₃ : List α} {l₂ l₄ : List β}, List.Forall₂ R l₁ l₂ → List.Forall₂ R l₃ l₄ →
      List.Forall₂ R (l₁ ++ l₃) (l₂ ++ l₄) := by
  intro l₁
  induction l₁ with
  | nil =>
    intro l₃ l₂ l₄ h12 h34
    cases h12
    simpa using h34
  | cons a t ih =>
    intro l₃ l₂ l₄ h12 h34
    cases h12 with
    | cons hab ht => exact List.Forall₂.cons hab (ih ht h34)

theorem forall₂_getD {α β : Type} {R : α → β → Prop} {l₁ : List α} {l₂ : List β}
    (h : List.Forall₂ R l₁ l₂) {k : ℕ} (hk : k < l₁.length) (d₁ : α) (d₂ : β) :
    R (l₁.getD k d₁) (l₂.getD k d₂) := by
  obtain ⟨hlen, hget⟩ := List.forall₂_iff_get.mp h
  rw [List.getD_eq_getElem l₁ d₁ hk, List.getD_eq_getElem l₂ d₂ (hlen ▸ hk)]
  exact hget k hk (hlen ▸ hk)

/-! ## Characterisation of the sweep -/

/-- The active set after the sweep has processed all event values `≤ v0`:
an interval index `x` is active iff it has opened (`S x ≤ v0`) and has not
closed, where closing happens at `E x` only if the erase comes after the
insert (at the same value, inserts run first; if `E x < S x` the erase was a
no-op on an absent element and `x` stays forever once inserted). -/
def asOf (S E : ℕ → Int) (F : Finset ℕ) (v0 : Int) : Finset ℕ :=
  F.filter fun x => S x ≤ v0 ∧ (v0 < E x ∨ E x < S x)

/-- All event values (starts and ends of filtered intervals). -/
def valSet (S E : ℕ → Int) (F : Finset ℕ) : Finset Int :=
  F.image S ∪ F.image E

/-- The ascending list of event values strictly above `v0`. -/
def valsAfter (S E : ℕ → Int) (F : Finset ℕ) (v0 : Int) : List Int :=
  ((valSet S E F).filter fun w => v0 < w).sort (· ≤ ·)

/-- The ascending list of all event values. -/
def allVals (S E : ℕ → Int) (F : Finset ℕ) : List Int :=
  (valSet S E F).sort (· ≤ ·)

/-- Sorting a finset whose minimum is `v` yields `v` followed by the sort of
the rest. -/
theorem sort_eq_cons_of_min {s : Finset Int} {v : Int} (hv : v ∈ s)
    (hmin : ∀ w ∈ s, v ≤ w) : s.sort (· ≤ ·) = v :: (s.erase v).sort (· ≤ ·) := by
  refine List.eq_of_perm_of_sorted ?_ (Finset.sort_sorted _ s) ?_
  · refine (List.perm_ext_iff_of_nodup (Finset.sort_nodup _ s) ?_).mpr ?_
    · exact List.nodup_cons.mpr ⟨by simp [Finset.mem_sort], Finset.sort_nodup _ _⟩
    · intro a
      simp only [Finset.mem_sort, List.mem_cons, Finset.mem_erase]
      constructor
      · intro ha
        rcases eq_or_ne a v with rfl | hne
        · exact Or.inl rfl
        · exact Or.inr ⟨hne, ha⟩
      · rintro (rfl | ⟨_, ha⟩)
        · exact hv
        · exact ha
  · refine List.sorted_cons.mpr ⟨?_, Finset.sort_sorted _ _⟩
    intro b hb
    rw [Finset.mem_sort] at hb
    exact hmin b (Finset.mem_of_mem_erase hb)

/-- One unfolding step of the sweep loop when at least one event remains. -/
theorem sweepAux_cons (S E : ℕ → Int) (fuel : ℕ) (ss se as : List ℕ)
    (h : ss ≠ [] ∨ se ≠ []) (v : Int) (hv : v = nextV S E ss se) :
    sweepAux S E (fuel + 1) ss se as =
      (v, ((se.takeWhile fun j => E j = v).foldl (fun a j => asErase j a)
          ((ss.takeWhile fun i => S i = v).foldl (fun a i => asInsert i a) as))) ::
      sweepAux S E fuel (ss.dropWhile fun i => S i = v)
        (se.dropWhile fun j => E j = v)
        ((se.takeWhile fun j => E j = v).foldl (fun a j => asErase j a)
          ((ss.takeWhile fun i => S i = v).foldl (fun a i => asInsert i a) as)) := by
  subst hv
  rcases ss with _ | ⟨i, ss⟩ <;> rcases se with _ | ⟨j, se⟩
  · simp at h
  · rfl
  · rfl
  · rfl

/-- The value selected by the sweep is the least event value still pending. -/
theorem nextV_facts (S E : ℕ → Int) (F : Finset ℕ) (v0 : Int) (ss se : List ℕ)
    (hsS : ss.Sorted fun a b => S a ≤ S b) (hsE : se.Sorted fun a b => E a ≤ E b)
    (hssm : ∀ x, x ∈ ss ↔ x ∈ F ∧ v0 < S x) (hsem : ∀ x, x ∈ se ↔ x ∈ F ∧ v0 < E x)
    (hne : ss ≠ [] ∨ se ≠ []) :
    nextV S E ss se ∈ (valSet S E F).filter (fun w => v0 < w) ∧
      ∀ w ∈ (valSet S E F).filter (fun w => v0 < w), nextV S E ss se ≤ w := by
  have hmin : ∀ v : Int, (∀ x ∈ ss, v ≤ S x) → (∀ x ∈ se, v ≤ E x) →
      ∀ w ∈ (valSet S E F).filter (fun w => v0 < w), v ≤ w := by
    intro v hS hE w hw
    obtain ⟨hw1, hw2⟩ := Finset.mem_filter.mp hw
    rcases Finset.mem_union.mp hw1 with hw1 | hw1
    · obtain ⟨x, hx, rfl⟩ := Finset.mem_image.mp hw1
      exact hS x ((hssm x).mpr ⟨hx, hw2⟩)
    · obtain ⟨x, hx, rfl⟩ := Finset.mem_image.mp hw1
      exact hE x ((hsem x).mpr ⟨hx, hw2⟩)
  rcases ss with _ | ⟨i, ss⟩ <;> rcases se with _ | ⟨j, se⟩
  · simp at hne
  · have hj := (hsem j).mp (List.mem_cons_self j se)
    have hjle : ∀ x ∈ j :: se, E j ≤ E x := by
      intro x hx
      rcases List.mem_cons.mp hx with rfl | hx
      · exact le_refl _
      · exact (List.sorted_cons.mp hsE).1 x hx
    refine ⟨?_, ?_⟩
    · show E j ∈ _
      exact Finset.mem_filter.mpr ⟨Finset.mem_union_right _ (Finset.mem_image_of_mem E hj.1),
        hj.2⟩
    · refine hmin (E j) (fun x hx => absurd hx (List.not_mem_nil x)) hjle
  · have hi := (hssm i).mp (List.mem_cons_self i ss)
    have hile : ∀ x ∈ i :: ss, S i ≤ S x := by
      intro x hx
      rcases List.mem_cons.mp hx with rfl | hx
      · exact le_refl _
      · exact (List.sorted_cons.mp hsS).1 x hx
    refine ⟨?_, ?_⟩
    · show S i ∈ _
      exact Finset.mem_filter.mpr ⟨Finset.mem_union_left _ (Finset.mem_image_of_mem S hi.1),
        hi.2⟩
    · exact hmin (S i) hile (fun x hx => absurd hx (List.not_mem_nil x))
  · have hi := (hssm i).mp (List.mem_cons_self i ss)
    have hj := (hsem j).mp (List.mem_cons_self j se)
    have hile : ∀ x ∈ i :: ss, S i ≤ S x := by
      intro x hx
      rcases List.mem_cons.mp hx with rfl | hx
      · exact le_refl _
      · exact (List.sorted_cons.mp hsS).1 x hx
    have hjle : ∀ x ∈ j :: se, E j ≤ E x := by
      intro x hx
      rcases List.mem_cons.mp hx with rfl | hx
      · exact le_refl _
      · exact (List.sorted_cons.mp hsE).1 x hx
    have hv : nextV S E (i :: ss) (j :: se) = if E j ≤ S i then E j else S i := rfl
    by_cases hc : E j ≤ S i
    · rw [hv, if_pos hc]
      refine ⟨Finset.mem_filter.mpr ⟨Finset.mem_union_right _
        (Finset.mem_image_of_mem E hj.1), hj.2⟩, ?_⟩
      exact hmin (E j) (fun x hx => le_trans hc (hile x hx)) hjle
    · rw [hv, if_neg hc]
      refine ⟨Finset.mem_filter.mpr ⟨Finset.mem_union_left _
        (Finset.mem_image_of_mem S hi.1), hi.2⟩, ?_⟩
      exact hmin (S i) hile (fun x hx => le_trans (by omega) (hjle x hx))

/-- Each sweep iteration consumes at least one pending event. -/
theorem sweep_consumes (S E : ℕ → Int) (ss se : List ℕ) (hne : ss ≠ [] ∨ se ≠ []) :
    (ss.dropWhile fun i => S i = nextV S E ss se).length +
      (se.dropWhile fun j => E j = nextV S E ss se).length < ss.length + se.length := by
  have hs1 : ∀ (l : List ℕ) (p : ℕ → Bool), (l.dropWhile p).length ≤ l.length :=
    fun l p => (List.dropWhile_sublist p).length_le
  rcases ss with _ | ⟨i, ss⟩ <;> rcases se with _ | ⟨j, se⟩
  · simp at hne
  · have hv : nextV S E [] (j :: se) = E j := rfl
    rw [hv, List.dropWhile_cons_of_pos (by simp)]
    have := hs1 se fun j' => decide (E j' = E j)
    simp only [List.length_cons, List.length_nil, List.dropWhile_nil]
    omega
  · have hv : nextV S E (i :: ss) [] = S i := rfl
    rw [hv, List.dropWhile_cons_of_pos (by simp)]
    have := hs1 ss fun i' => decide (S i' = S i)
    simp only [List.length_cons, List.length_nil, List.dropWhile_nil]
    omega
  · have hv : nextV S E (i :: ss) (j :: se) = if E j ≤ S i then E j else S i := rfl
    rw [hv]
    split
    · rename_i hle
      rw [List.dropWhile_cons_of_pos (l := se) (by simp)]
      have h1 := hs1 (i :: ss) fun i' => decide (S i' = E j)
      have h2 := hs1 se fun j' => decide (E j' = E j)
      simp only [List.length_cons] at h1 ⊢
      omega
    · rename_i hlt
      rw [List.dropWhile_cons_of_pos (l := ss) (by simp)]
      have h1 := hs1 ss fun i' => decide (S i' = S i)
      have h2 := hs1 (j :: se) fun j' => decide (E j' = S i)
      simp only [List.length_cons] at h2 ⊢
      omega

/-- Main characterisation of the sweep loop: starting from a state where all
events `≤ v0` are processed and the active set matches `asOf v0`, the sweep
emits exactly the ascending list of pending event values, each paired with
the ascending listing of the intervals covering it. -/
theorem sweepAux_eq (S E : ℕ → Int) (F : Finset ℕ) :
    ∀ (fuel : ℕ) (v0 : Int) (ss se as : List ℕ),
      ss.Sorted (fun a b => S a ≤ S b) → se.Sorted (fun a b => E a ≤ E b) →
      ss.Nodup → se.Nodup →
      (∀ x, x ∈ ss ↔ x ∈ F ∧ v0 < S x) →
      (∀ x, x ∈ se ↔ x ∈ F ∧ v0 < E x) →
      as.Sorted (· < ·) → (∀ x, x ∈ as ↔ x ∈ asOf S E F v0) →
      ss.length + se.length ≤ fuel →
      sweepAux S E fuel ss se as =
        (valsAfter S E F v0).map fun v => (v, (asOf S E F v).sort (· ≤ ·)) := by
  intro fuel
  induction fuel with
  | zero =>
    intro v0 ss se as hsS hsE ndS ndE hssm hsem hasS hasm hfuel
    have hss : ss = [] := List.length_eq_zero.mp (by omega)
    have hse : se = [] := List.length_eq_zero.mp (by omega)
    subst hss hse
    have hemp : (valSet S E F).filter (fun w => v0 < w) = ∅ := by
      refine Finset.eq_empty_iff_forall_not_mem.mpr ?_
      intro w hw
      obtain ⟨hw1, hw2⟩ := Finset.mem_filter.mp hw
      rcases Finset.mem_union.mp hw1 with h1 | h1
      · obtain ⟨x, hx, rfl⟩ := Finset.mem_image.mp h1
        exact absurd ((hssm x).mpr ⟨hx, hw2⟩) (List.not_mem_nil x)
      · obtain ⟨x, hx, rfl⟩ := Finset.mem_image.mp h1
        exact absurd ((hsem x).mpr ⟨hx, hw2⟩) (List.not_mem_nil x)
    simp [sweepAux, valsAfter, hemp]
  | succ fuel ih =>
    intro v0 ss se as hsS hsE ndS ndE hssm hsem hasS hasm hfuel
    by_cases hboth : ss = [] ∧ se = []
    · obtain ⟨rfl, rfl⟩ := hboth
      have hemp : (valSet S E F).filter (fun w => v0 < w) = ∅ := by
        refine Finset.eq_empty_iff_forall_not_mem.mpr ?_
        intro w hw
        obtain ⟨hw1, hw2⟩ := Finset.mem_filter.mp hw
        rcases Finset.mem_union.mp hw1 with h1 | h1
        · obtain ⟨x, hx, rfl⟩ := Finset.mem_image.mp h1
          exact absurd ((hssm x).mpr ⟨hx, hw2⟩) (List.not_mem_nil x)
        · obtain ⟨x, hx, rfl⟩ := Finset.mem_image.mp h1
          exact absurd ((hsem x).mpr ⟨hx, hw2⟩) (List.not_mem_nil x)
      rw [show sweepAux S E (fuel + 1) [] [] as = [] from rfl]
      simp [valsAfter, hemp]
    · have hne : ss ≠ [] ∨ se ≠ [] := by tauto
      obtain ⟨hvmem, hvmin⟩ := nextV_facts S E F v0 ss se hsS hsE hssm hsem hne
      set v := nextV S E ss se with hvdef
      have hv0 : v0 < v := (Finset.mem_filter.mp hvmem).2
      have hSx : ∀ x ∈ F, v0 < S x → v ≤ S x := fun x hxF hx0 =>
        hvmin _ (Finset.mem_filter.mpr
          ⟨Finset.mem_union_left _ (Finset.mem_image_of_mem S hxF), hx0⟩)
      have hEx : ∀ x ∈ F, v0 < E x → v ≤ E x := fun x hxF hx0 =>
        hvmin _ (Finset.mem_filter.mpr
          ⟨Finset.mem_union_right _ (Finset.mem_image_of_mem E hxF), hx0⟩)
      have hlbS : ∀ x ∈ ss, v ≤ S x := fun x hx => by
        obtain ⟨hxF, hx0⟩ := (hssm x).mp hx
        exact hSx x hxF hx0
      have hlbE : ∀ x ∈ se, v ≤ E x := fun x hx => by
        obtain ⟨hxF, hx0⟩ := (hsem x).mp hx
        exact hEx x hxF hx0
      have hO : ∀ a, a ∈ (ss.takeWhile fun i => S i = v) ↔ a ∈ F ∧ S a = v := by
        intro a
        rw [mem_takeWhile_key S v ss hsS hlbS a]
        constructor
        · rintro ⟨ha, hk⟩
          exact ⟨((hssm a).mp ha).1, hk⟩
        · rintro ⟨haF, hk⟩
          exact ⟨(hssm a).mpr ⟨haF, by omega⟩, hk⟩
      have hC : ∀ a, a ∈ (se.takeWhile fun j => E j = v) ↔ a ∈ F ∧ E a = v := by
        intro a
        rw [mem_takeWhile_key E v se hsE hlbE a]
        constructor
        · rintro ⟨ha, hk⟩
          exact ⟨((hsem a).mp ha).1, hk⟩
        · rintro ⟨haF, hk⟩
          exact ⟨(hsem a).mpr ⟨haF, by omega⟩, hk⟩
      have hssd : ∀ a, a ∈ (ss.dropWhile fun i => S i = v) ↔ a ∈ F ∧ v < S a := by
        intro a
        rw [mem_dropWhile_key S v ss hsS hlbS a]
        constructor
        · rintro ⟨ha, hk⟩
          exact ⟨((hssm a).mp ha).1, hk⟩
        · rintro ⟨haF, hk⟩
          exact ⟨(hssm a).mpr ⟨haF, by omega⟩, hk⟩
      have hsed : ∀ a, a ∈ (se.dropWhile fun j => E j = v) ↔ a ∈ F ∧ v < E a := by
        intro a
        rw [mem_dropWhile_key E v se hsE hlbE a]
        constructor
        · rintro ⟨ha, hk⟩
          exact ⟨((hsem a).mp ha).1, hk⟩
        · rintro ⟨haF, hk⟩
          exact ⟨(hsem a).mpr ⟨haF, by omega⟩, hk⟩
      have hvals : valsAfter S E F v0 = v :: valsAfter S E F v := by
        have herase : ((valSet S E F).filter fun w => v0 < w).erase v =
            (valSet S E F).filter fun w => v < w := by
          ext w
          simp only [Finset.mem_erase, Finset.mem_filter]
          constructor
          · rintro ⟨hwne, hw, h0⟩
            exact ⟨hw, lt_of_le_of_ne (hvmin w (Finset.mem_filter.mpr ⟨hw, h0⟩))
              (Ne.symm hwne)⟩
          · rintro ⟨hw, hvw⟩
            exact ⟨by omega, hw, by omega⟩
        show ((valSet S E F).filter fun w => v0 < w).sort (· ≤ ·) =
            v :: ((valSet S E F).filter fun w => v < w).sort (· ≤ ·)
        rw [sort_eq_cons_of_min hvmem hvmin, herase]
      rw [sweepAux_cons S E fuel ss se as hne v hvdef, hvals]
      have has1S : ((ss.takeWhile fun i => S i = v).foldl
          (fun a i => asInsert i a) as).Sorted (· < ·) :=
        sorted_foldl_asInsert _ hasS
      have has2S : ((se.takeWhile fun j => E j = v).foldl (fun a j => asErase j a)
          ((ss.takeWhile fun i => S i = v).foldl
            (fun a i => asInsert i a) as)).Sorted (· < ·) :=
        sorted_foldl_asErase _ has1S
      have has2m : ∀ a, a ∈ ((se.takeWhile fun j => E j = v).foldl (fun a j => asErase j a)
          ((ss.takeWhile fun i => S i = v).foldl (fun a i => asInsert i a) as)) ↔
          a ∈ asOf S E F v := by
        intro a
        constructor
        · intro ha
          obtain ⟨ha1, hnC⟩ := (mem_foldl_asErase _ has1S a).mp ha
          rcases (mem_foldl_asInsert _ as a).mp ha1 with hO' | has'
          · obtain ⟨haF, hSa⟩ := (hO a).mp hO'
            refine Finset.mem_filter.mpr ⟨haF, by omega, ?_⟩
            rcases lt_trichotomy (E a) v with h1 | h1 | h1
            · have h2 : ¬ v0 < E a := fun hgt => by have := hEx a haF hgt; omega
              right; omega
            · exact absurd ((hC a).mpr ⟨haF, h1⟩) hnC
            · left; omega
          · obtain ⟨haF, hSa, hdisj⟩ := Finset.mem_filter.mp ((hasm a).mp has')
            refine Finset.mem_filter.mpr ⟨haF, by omega, ?_⟩
            rcases hdisj with h1 | h1
            · have h2 := hEx a haF h1
              have h3 : E a ≠ v := fun hEv => hnC ((hC a).mpr ⟨haF, hEv⟩)
              left; omega
            · right; omega
        · intro ha
          obtain ⟨haF, hSa, hdisj⟩ := Finset.mem_filter.mp ha
          have hEne : E a ≠ v := by
            intro hEv
            rcases hdisj with h1 | h1 <;> omega
          refine (mem_foldl_asErase _ has1S a).mpr
            ⟨?_, fun hc => hEne ((hC a).mp hc).2⟩
          refine (mem_foldl_asInsert _ as a).mpr ?_
          rcases eq_or_lt_of_le hSa with hSv | hSlt
          · exact Or.inl ((hO a).mpr ⟨haF, hSv⟩)
          · refine Or.inr ((hasm a).mpr (Finset.mem_filter.mpr ⟨haF, ?_, ?_⟩))
            · by_contra hc
              push_neg at hc
              have := hSx a haF hc
              omega
            · rcases hdisj with h1 | h1
              · left; omega
              · right; omega
      simp only [List.map_cons]
      refine congrArg₂ List.cons ?_ ?_
      · exact congrArg (Prod.mk v) (eq_sort_of_sorted_of_mem has2S has2m)
      · refine ih v (ss.dropWhile fun i => S i = v) (se.dropWhile fun j => E j = v) _
          (List.Pairwise.sublist (List.dropWhile_sublist _) hsS)
          (List.Pairwise.sublist (List.dropWhile_sublist _) hsE)
          (List.Nodup.sublist (List.dropWhile_sublist _) ndS)
          (List.Nodup.sublist (List.dropWhile_sublist _) ndE)
          hssd hsed has2S has2m ?_
        have := sweep_consumes S E ss se hne
        rw [← hvdef] at this
        omega

/-- The sweep starting from the full argsorted lists and an empty active set
produces all event values in ascending order, with their covering sets. -/
theorem sweep_body_eq (S E : ℕ → Int) (F : Finset ℕ) (ss se : List ℕ)
    (hsS : ss.Sorted fun a b => S a ≤ S b) (hsE : se.Sorted fun a b => E a ≤ E b)
    (ndS : ss.Nodup) (ndE : se.Nodup)
    (hssm : ∀ x, x ∈ ss ↔ x ∈ F) (hsem : ∀ x, x ∈ se ↔ x ∈ F) :
    sweepAux S E (ss.length + se.length) ss se [] =
      (allVals S E F).map fun v => (v, (asOf S E F v).sort (· ≤ ·)) := by
  rcases (valSet S E F).eq_empty_or_nonempty with hemp | hUne
  · have hF : ∀ x, x ∉ F := by
      intro x hx
      have : S x ∈ valSet S E F :=
        Finset.mem_union_left _ (Finset.mem_image_of_mem S hx)
      rw [hemp] at this
      exact Finset.not_mem_empty _ this
    have hss : ss = [] :=
      List.eq_nil_iff_forall_not_mem.mpr fun x hx => hF x ((hssm x).mp hx)
    have hse : se = [] :=
      List.eq_nil_iff_forall_not_mem.mpr fun x hx => hF x ((hsem x).mp hx)
    subst hss hse
    rw [show sweepAux S E ([].length + [].length) [] [] [] = [] from rfl]
    simp [allVals, hemp]
  · have hv0 : ∀ w ∈ valSet S E F, (valSet S E F).min' hUne - 1 < w := by
      intro w hw
      have := Finset.min'_le _ w hw
      omega
    have hfilter : (valSet S E F).filter (fun w => (valSet S E F).min' hUne - 1 < w) =
        valSet S E F := Finset.filter_true_of_mem hv0
    have hmain := sweepAux_eq S E F (ss.length + se.length)
      ((valSet S E F).min' hUne - 1) ss se [] hsS hsE ndS ndE
      (fun x => ⟨fun hx => ⟨(hssm x).mp hx, hv0 _ (Finset.mem_union_left _
          (Finset.mem_image_of_mem S ((hssm x).mp hx)))⟩,
        fun hx => (hssm x).mpr hx.1⟩)
      (fun x => ⟨fun hx => ⟨(hsem x).mp hx, hv0 _ (Finset.mem_union_right _
          (Finset.mem_image_of_mem E ((hsem x).mp hx)))⟩,
        fun hx => (hsem x).mpr hx.1⟩)
      (by simp) (fun x => by
        simp only [List.not_mem_nil, false_iff]
        intro hx
        obtain ⟨hxF, hxle, _⟩ := Finset.mem_filter.mp hx
        have := hv0 (S x) (Finset.mem_union_left _ (Finset.mem_image_of_mem S hxF))
        omega)
      (le_refl _)
    rw [hmain]
    have hv : valsAfter S E F ((valSet S E F).min' hUne - 1) = allVals S E F := by
      show ((valSet S E F).filter fun w => (valSet S E F).min' hUne - 1 < w).sort (· ≤ ·) =
        (valSet S E F).sort (· ≤ ·)
      rw [hfilter]
    rw [hv]

/-- Closed form of the tables produced by `Build`'s sweep, for any pair of
key-sorted argsort permutations of the filtered index set `F`. -/
theorem buildWith_eq (MINV MAXV : Int) (S E : ℕ → Int) (F : Finset ℕ) (ss se : List ℕ)
    (hsS : ss.Sorted fun a b => S a ≤ S b) (hsE : se.Sorted fun a b => E a ≤ E b)
    (ndS : ss.Nodup) (ndE : se.Nodup)
    (hssm : ∀ x, x ∈ ss ↔ x ∈ F) (hsem : ∀ x, x ∈ se ↔ x ∈ F) :
    buildWith MINV MAXV S E ss se =
      { Tab := (if preFlag MINV S ss then [MINV] else []) ++ allVals S E F ++
          (if postFlag MAXV E se then [MAXV] else [])
        IList := (if preFlag MINV S ss then [([] : List ℕ)] else []) ++
          ((allVals S E F).map fun v => (asOf S E F v).sort (· ≤ ·)) ++
          (if postFlag MAXV E se then [([] : List ℕ)] else []) } := by
  unfold buildWith
  rw [sweep_body_eq S E F ss se hsS hsE ndS ndE hssm hsem]
  simp only [RM.mk.injEq, List.map_map]
  constructor
  · congr 1
    · congr 1
      have : (Prod.fst ∘ fun v => (v, (asOf S E F v).sort (· ≤ ·))) = id := rfl
      rw [this, List.map_id]
  · congr 1

/-! ## The filtered index list and its argsorts -/

theorem mem_filteredIdx (S E : ℕ → Int) (N : ℕ) (i : ℕ) :
    i ∈ filteredIdx S E N ↔ i < N ∧ S i ≠ E i := by
  simp [filteredIdx, List.mem_filter, List.mem_range]

theorem filteredIdx_nodup (S E : ℕ → Int) (N : ℕ) : (filteredIdx S E N).Nodup :=
  (List.nodup_range N).filter _

/-- The set of non-degenerate interval indices. -/
def Fset (S E : ℕ → Int) (N : ℕ) : Finset ℕ := (filteredIdx S E N).toFinset

theorem mem_Fset (S E : ℕ → Int) (N : ℕ) (i : ℕ) :
    i ∈ Fset S E N ↔ i < N ∧ S i ≠ E i := by
  rw [Fset, List.mem_toFinset, mem_filteredIdx]

theorem sortKey_sorted (key : ℕ → Int) (l : List ℕ) :
    (List.insertionSort (fun i j => key i ≤ key j) l).Sorted fun i j => key i ≤ key j := by
  haveI h1 : IsTotal ℕ fun i j => key i ≤ key j := ⟨fun a b => le_total (key a) (key b)⟩
  haveI h2 : IsTrans ℕ fun i j => key i ≤ key j := ⟨fun a b c hab hbc => le_trans hab hbc⟩
  exact List.sorted_insertionSort _ l

theorem sortKey_nodup (key : ℕ → Int) (l : List ℕ) (h : l.Nodup) :
    (List.insertionSort (fun i j => key i ≤ key j) l).Nodup :=
  (List.perm_insertionSort _ l).nodup_iff.mpr h

theorem mem_ssort (S E : ℕ → Int) (N : ℕ) (x : ℕ) :
    x ∈ List.insertionSort (fun i j => S i ≤ S j) (filteredIdx S E N) ↔ x ∈ Fset S E N :=
  (List.mem_insertionSort _).trans (List.mem_toFinset).symm

theorem mem_esort (S E : ℕ → Int) (N : ℕ) (x : ℕ) :
    x ∈ List.insertionSort (fun i j => E i ≤ E j) (filteredIdx S E N) ↔ x ∈ Fset S E N :=
  (List.mem_insertionSort _).trans (List.mem_toFinset).symm

/-- Closed form of `buildCore`'s tables. -/
theorem buildCore_eq (MINV MAXV : Int) (S E : ℕ → Int) (N : ℕ) :
    buildCore MINV MAXV S E N =
      { Tab := (if preFlag MINV S (List.insertionSort (fun i j => S i ≤ S j) (filteredIdx S E N))
            then [MINV] else []) ++ allVals S E (Fset S E N) ++
          (if postFlag MAXV E (List.insertionSort (fun i j => E i ≤ E j) (filteredIdx S E N))
            then [MAXV] else [])
        IList := (if preFlag MINV S (List.insertionSort (fun i j => S i ≤ S j)
              (filteredIdx S E N)) then [([] : List ℕ)] else []) ++
          ((allVals S E (Fset S E N)).map fun v => (asOf S E (Fset S E N) v).sort (· ≤ ·)) ++
          (if postFlag MAXV E (List.insertionSort (fun i j => E i ≤ E j) (filteredIdx S E N))
            then [([] : List ℕ)] else []) } := by
  unfold buildCore
  exact buildWith_eq MINV MAXV S E (Fset S E N) _ _ (sortKey_sorted S _) (sortKey_sorted E _)
    (sortKey_nodup S _ (filteredIdx_nodup S E N)) (sortKey_nodup E _ (filteredIdx_nodup S E N))
    (mem_ssort S E N) (mem_esort S E N)

/-! ## Semantic content of the boundary flags -/

theorem sorted_key_le_last (key : ℕ → Int) :
    ∀ (l : List ℕ), l.Sorted (fun a b => key a ≤ key b) → ∀ (j : ℕ), l.getLast? = some j →
      ∀ x ∈ l, key x ≤ key j := by
  intro l
  induction l with
  | nil => intro _ j hj; simp at hj
  | cons y t ih =>
    intro hs j hj x hx
    obtain ⟨hy, ht⟩ := List.sorted_cons.mp hs
    rcases t with _ | ⟨z, t'⟩
    · simp at hj
      subst hj
      rcases List.mem_cons.mp hx with rfl | hx
      · exact le_refl _
      · simp at hx
    · rw [List.getLast?_cons_cons] at hj
      have hjmem : j ∈ z :: t' := List.mem_of_mem_getLast? hj
      rcases List.mem_cons.mp hx with rfl | hx
      · exact hy j hjmem
      · exact ih ht j hj x hx

theorem preFlag_eq_false (MINV : Int) (S : ℕ → Int) (ss : List ℕ)
    (h : preFlag MINV S ss = false) :
    ∃ i tl, ss = i :: tl ∧ S i ≤ MINV := by
  rcases ss with _ | ⟨i, tl⟩
  · simp [preFlag] at h
  · refine ⟨i, tl, rfl, ?_⟩
    simp [preFlag] at h
    omega

theorem preFlag_eq_true (MINV : Int) (S : ℕ → Int) (ss : List ℕ)
    (h : preFlag MINV S ss = true) (i : ℕ) (hi : i ∈ ss)
    (hs : ss.Sorted fun a b => S a ≤ S b) : MINV < S i := by
  rcases ss with _ | ⟨y, tl⟩
  · simp at hi
  · simp [preFlag] at h
    rcases List.mem_cons.mp hi with rfl | hi
    · exact h
    · exact lt_of_lt_of_le h ((List.sorted_cons.mp hs).1 i hi)

theorem postFlag_eq_false (MAXV : Int) (E : ℕ → Int) (se : List ℕ)
    (h : postFlag MAXV E se = false) :
    ∃ j, se.getLast? = some j ∧ MAXV ≤ E j := by
  rw [postFlag] at h
  rcases hj : se.getLast? with _ | j
  · rw [hj] at h; simp at h
  · rw [hj] at h
    simp at h
    exact ⟨j, rfl, by omega⟩

theorem postFlag_eq_true (MAXV : Int) (E : ℕ → Int) (se : List ℕ)
    (h : postFlag MAXV E se = true) (x : ℕ) (hx : x ∈ se)
    (hs : se.Sorted fun a b => E a ≤ E b) : E x < MAXV := by
  rw [postFlag] at h
  rcases hj : se.getLast? with _ | j
  · rw [List.getLast?_eq_none_iff] at hj
    subst hj
    simp at hx
  · rw [hj] at h
    simp at h
    exact lt_of_le_of_lt (sorted_key_le_last E se hs j hj x hx) h

/-! ## Facts about the event-value list -/

theorem mem_allVals (S E : ℕ → Int) (F : Finset ℕ) (w : Int) :
    w ∈ allVals S E F ↔ w ∈ valSet S E F :=
  Finset.mem_sort _

theorem allVals_sorted_le (S E : ℕ → Int) (F : Finset ℕ) :
    (allVals S E F).Sorted (· ≤ ·) :=
  Finset.sort_sorted _ _

theorem allVals_sorted_lt (S E : ℕ → Int) (F : Finset ℕ) :
    (allVals S E F).Sorted (· < ·) :=
  Finset.sort_sorted_lt _

/-! ## Simple invariants of the sweep output -/

theorem sweepAux_length_le (S E : ℕ → Int) :
    ∀ (fuel : ℕ) (ss se as : List ℕ), (sweepAux S E fuel ss se as).length ≤ fuel := by
  intro fuel
  induction fuel with
  | zero =>
    intro ss se as
    rw [show sweepAux S E 0 ss se as = [] from rfl]
    simp
  | succ f ih =>
    intro ss se as
    by_cases hb : ss = [] ∧ se = []
    · obtain ⟨rfl, rfl⟩ := hb
      rw [show sweepAux S E (f + 1) [] [] as = [] from rfl]
      simp
    · have hne : ss ≠ [] ∨ se ≠ [] := by tauto
      rw [sweepAux_cons S E f ss se as hne (nextV S E ss se) rfl]
      simp only [List.length_cons]
      have := ih (ss.dropWhile fun i => S i = nextV S E ss se)
        (se.dropWhile fun j => E j = nextV S E ss se)
        ((se.takeWhile fun j => E j = nextV S E ss se).foldl (fun a j => asErase j a)
          ((ss.takeWhile fun i => S i = nextV S E ss se).foldl (fun a i => asInsert i a) as))
      omega

theorem sweepAux_snd (S E : ℕ → Int) :
    ∀ (fuel : ℕ) (ss se as : List ℕ), as.Sorted (· < ·) →
      ∀ pr ∈ sweepAux S E fuel ss se as,
        pr.2.Sorted (· < ·) ∧ ∀ i ∈ pr.2, i ∈ as ∨ i ∈ ss := by
  intro fuel
  induction fuel with
  | zero =>
    intro ss se as _ pr hpr
    rw [show sweepAux S E 0 ss se as = [] from rfl] at hpr
    exact absurd hpr (List.not_mem_nil pr)
  | succ f ih =>
    intro ss se as hs pr hpr
    by_cases hb : ss = [] ∧ se = []
    · obtain ⟨rfl, rfl⟩ := hb
      rw [show sweepAux S E (f + 1) [] [] as = [] from rfl] at hpr
      exact absurd hpr (List.not_mem_nil pr)
    · have hne : ss ≠ [] ∨ se ≠ [] := by tauto
      rw [sweepAux_cons S E f ss se as hne (nextV S E ss se) rfl] at hpr
      have has1S := sorted_foldl_asInsert (ss.takeWhile fun i => S i = nextV S E ss se) hs
      have has2S := sorted_foldl_asErase (se.takeWhile fun j => E j = nextV S E ss se) has1S
      rcases List.mem_cons.mp hpr with rfl | hpr
      · refine ⟨has2S, ?_⟩
        intro i hi
        obtain ⟨hi1, _⟩ := (mem_foldl_asErase _ has1S i).mp hi
        rcases (mem_foldl_asInsert _ as i).mp hi1 with h1 | h1
        · exact Or.inr ((List.takeWhile_sublist _).subset h1)
        · exact Or.inl h1
      · obtain ⟨hps, hpm⟩ := ih _ _ _ has2S pr hpr
        refine ⟨hps, ?_⟩
        intro i hi
        rcases hpm i hi with h1 | h1
        · obtain ⟨hi1, _⟩ := (mem_foldl_asErase _ has1S i).mp h1
          rcases (mem_foldl_asInsert _ as i).mp hi1 with h2 | h2
          · exact Or.inr ((List.takeWhile_sublist _).subset h2)
          · exact Or.inl h2
        · exact Or.inr ((List.dropWhile_sublist _).subset h1)

/-! ## Abstract analysis of the `lower_bound` lookup -/

/-- If the parallel tables relate by `e = B t` entrywise, the table is sorted
and brackets `p`, and `B` is constant from the greatest entry `≤ p` up to
`p`, then the lookup returns `B p`. -/
theorem queryTab_eq (tab : List Int) (il : List (List ℕ)) (B : Int → List ℕ) (p : Int)
    (hsort : tab.Sorted (· ≤ ·))
    (hF2 : List.Forall₂ (fun t e => e = B t) tab il)
    (hhead : tab.getD 0 0 ≤ p)
    (hex : ∃ w ∈ tab, p ≤ w)
    (hconst : ∀ v, v ∈ tab → v ≤ p → (∀ u ∈ tab, u ≤ p → u ≤ v) → B p = B v) :
    queryTab tab il p = B p := by
  have hklt : tab.findIdx (fun x => decide (p ≤ x)) < tab.length := by
    obtain ⟨w, hwmem, hwp⟩ := hex
    exact List.findIdx_lt_length_of_exists ⟨w, hwmem, by simpa using hwp⟩
  have hkp : p ≤ tab.getD (tab.findIdx fun x => decide (p ≤ x)) 0 := by
    have := @List.findIdx_getElem _ (fun x => decide (p ≤ x)) tab hklt
    rw [List.getD_eq_getElem tab 0 hklt]
    simpa using this
  show (if (tab.findIdx fun x => decide (p ≤ x)) < tab.length then
      (if p < tab.getD (tab.findIdx fun x => decide (p ≤ x)) 0
        then il.getD ((tab.findIdx fun x => decide (p ≤ x)) - 1) []
        else il.getD (tab.findIdx fun x => decide (p ≤ x)) []) else []) = B p
  rw [if_pos hklt]
  by_cases hlt : p < tab.getD (tab.findIdx fun x => decide (p ≤ x)) 0
  · rw [if_pos hlt]
    set k := tab.findIdx fun x => decide (p ≤ x) with hk
    have hk0 : k ≠ 0 := by
      intro h0
      rw [h0] at hlt
      omega
    have hk1lt : k - 1 < tab.length := by omega
    have hprev : tab.getD (k - 1) 0 < p := by
      have h2 := @List.not_of_lt_findIdx _ (fun x => decide (p ≤ x)) tab (k - 1) (by omega)
      rw [List.getD_eq_getElem tab 0 hk1lt]
      simp only [decide_eq_false_iff_not, not_le] at h2
      exact h2
    have hBeq : il.getD (k - 1) [] = B (tab.getD (k - 1) 0) := forall₂_getD hF2 hk1lt 0 []
    rw [hBeq]
    refine (hconst (tab.getD (k - 1) 0) ?_ (le_of_lt hprev) ?_).symm
    · rw [List.getD_eq_getElem tab 0 hk1lt]
      exact List.getElem_mem hk1lt
    · intro u humem hup
      obtain ⟨j, hj, rfl⟩ := List.getElem_of_mem humem
      rw [← List.getD_eq_getElem tab 0 hj] at hup ⊢
      rcases Nat.lt_or_ge j k with hjk | hjk
      · exact sorted_getD_mono hsort (by omega) hk1lt 0
      · exfalso
        have := sorted_getD_mono hsort hjk hj 0
        omega
  · rw [if_neg hlt]
    have heq : tab.getD (tab.findIdx fun x => decide (p ≤ x)) 0 = p := by omega
    have hBeq : il.getD (tab.findIdx fun x => decide (p ≤ x)) [] =
        B (tab.getD (tab.findIdx fun x => decide (p ≤ x)) 0) := forall₂_getD hF2 hklt 0 []
    rw [hBeq, heq]

/-! ## Bridging the sweep tables and the brute-force oracle -/

theorem valSet_bounds (MINV MAXV : Int) (S E : ℕ → Int) (N : ℕ)
    (hSE : ∀ i, i < N → S i ≤ E i) (hdom : ∀ i, i < N → MINV ≤ S i ∧ E i ≤ MAXV) :
    ∀ w ∈ valSet S E (Fset S E N), MINV ≤ w ∧ w ≤ MAXV := by
  intro w hw
  rcases Finset.mem_union.mp hw with h1 | h1
  · obtain ⟨x, hx, rfl⟩ := Finset.mem_image.mp h1
    obtain ⟨hxN, _⟩ := (mem_Fset S E N x).mp hx
    have h2 := hSE x hxN
    have h3 := hdom x hxN
    exact ⟨h3.1, by omega⟩
  · obtain ⟨x, hx, rfl⟩ := Finset.mem_image.mp h1
    obtain ⟨hxN, _⟩ := (mem_Fset S E N x).mp hx
    have h2 := hSE x hxN
    have h3 := hdom x hxN
    exact ⟨by omega, h3.2⟩

/-- When no interval is malformed, the sweep's active set at `v` is exactly
the brute-force stabbing set at `v`. -/
theorem asOf_eq_brute (S E : ℕ → Int) (N : ℕ) (hSE : ∀ i, i < N → S i ≤ E i) (v : Int) :
    asOf S E (Fset S E N) v = bruteSet S E N v := by
  ext i
  simp only [asOf, bruteSet, Finset.mem_filter, mem_Fset, Finset.mem_range]
  constructor
  · rintro ⟨⟨hiN, hne⟩, hSv, hdisj⟩
    have := hSE i hiN
    rcases hdisj with h1 | h1
    · exact ⟨hiN, hSv, h1⟩
    · omega
  · rintro ⟨hiN, hSv, hvE⟩
    exact ⟨⟨hiN, by omega⟩, hSv, Or.inl hvE⟩

theorem brute_maxv_empty (MINV MAXV : Int) (S E : ℕ → Int) (N : ℕ)
    (hdom : ∀ i, i < N → MINV ≤ S i ∧ E i ≤ MAXV) : bruteSet S E N MAXV = ∅ := by
  refine Finset.eq_empty_iff_forall_not_mem.mpr ?_
  intro i hi
  obtain ⟨hiN, h1, h2⟩ := Finset.mem_filter.mp hi
  rw [Finset.mem_range] at hiN
  have := (hdom i hiN).2
  omega

theorem brute_minv_empty (MINV : Int) (S E : ℕ → Int) (N : ℕ)
    (h : ∀ x ∈ Fset S E N, MINV < S x) : bruteSet S E N MINV = ∅ := by
  refine Finset.eq_empty_iff_forall_not_mem.mpr ?_
  intro i hi
  obtain ⟨hiN, h1, h2⟩ := Finset.mem_filter.mp hi
  rw [Finset.mem_range] at hiN
  have := h i ((mem_Fset S E N i).mpr ⟨hiN, by omega⟩)
  omega

/-- After any `buildCore`, the first table entry is at most any representable
query point (`Tab[0]` is `MINV` itself, or a value `≤ MINV` when an interval
start reaches the sentinel). -/
theorem buildCore_tab_getD_zero_le (MINV MAXV : Int) (S E : ℕ → Int) (N : ℕ) (p : Int)
    (hp1 : MINV ≤ p) : (buildCore MINV MAXV S E N).Tab.getD 0 0 ≤ p := by
  rw [buildCore_eq]
  cases hpf : preFlag MINV S (List.insertionSort (fun i j => S i ≤ S j) (filteredIdx S E N))
  · obtain ⟨i0, tl, hcons, hle⟩ := preFlag_eq_false _ _ _ hpf
    have hi0 : i0 ∈ Fset S E N := by
      rw [← mem_ssort S E N i0, hcons]
      exact List.mem_cons_self i0 tl
    have hSmem : S i0 ∈ allVals S E (Fset S E N) := by
      rw [mem_allVals]
      exact Finset.mem_union_left _ (Finset.mem_image_of_mem S hi0)
    have hnn : 0 < (allVals S E (Fset S E N)).length :=
      List.length_pos.mpr (List.ne_nil_of_mem hSmem)
    rw [show (if (false = true) then [MINV] else ([] : List Int)) = [] from rfl,
      List.nil_append, List.getD_append _ _ 0 0 hnn]
    have := sorted_getD_zero_le (allVals_sorted_le S E (Fset S E N)) hSmem 0
    omega
  · simp only [if_pos rfl, List.cons_append, List.getD_cons_zero]
    exact hp1

/-- Sortedness of a value list bracketed by optional sentinels. -/
theorem sorted_append3_le (MINV MAXV : Int) (vals : List Int) (b1 b2 : Bool)
    (hv : vals.Sorted (· ≤ ·)) (hlo : ∀ w ∈ vals, MINV ≤ w) (hhi : ∀ w ∈ vals, w ≤ MAXV)
    (hMM : MINV ≤ MAXV) :
    ((if b1 then [MINV] else []) ++ vals ++ (if b2 then [MAXV] else [])).Sorted (· ≤ ·) := by
  refine List.pairwise_append.mpr ⟨List.pairwise_append.mpr ⟨?_, hv, ?_⟩, ?_, ?_⟩
  · cases b1 <;> simp
  · intro a ha b hb
    cases b1
    · simp at ha
    · simp at ha
      subst ha
      exact hlo b hb
  · cases b2 <;> simp
  · intro a ha b hb
    cases b2
    · simp at hb
    · simp at hb
      subst hb
      rcases List.mem_append.mp ha with h1 | h1
      · cases b1
        · simp at h1
        · simp at h1
          subst h1
          exact hMM
      · exact hhi a h1

/-- `Forall₂` on a matched pair of optional sentinel entries. -/
theorem forall₂_flag {α β : Type} {R : α → β → Prop} (b : Bool) (x : α) (y : β)
    (h : b = true → R x y) :
    List.Forall₂ R (if b then [x] else []) (if b then [y] else []) := by
  cases b
  · simp
  · simp only [if_pos rfl]
    exact List.Forall₂.cons (h rfl) List.Forall₂.nil

/-! ## Claim C1: oracle equivalence of `Query` -/

/-- C1.  For every input of `N` intervals with `start[i] <= end[i]` (all
values in the representable domain `[MINV, MAXV]`), after `Build(S, E, N)`,
`Query(p)` returns exactly the brute-force stabbing set
`{i : start[i] <= p < end[i]}` for every domain point `p` — including points
below the minimum start and at or above the maximum end, which yield the
empty set. -/
theorem query_eq_brute (MINV MAXV : Int) (S E : ℕ → Int) (N : ℕ) (p : Int)
    (hSE : ∀ i, i < N → S i ≤ E i) (hdom : ∀ i, i < N → MINV ≤ S i ∧ E i ≤ MAXV)
    (hp1 : MINV ≤ p) (hp2 : p ≤ MAXV) :
    ∀ i, i ∈ (rmBuild MINV MAXV S E N).Query p ↔ i < N ∧ S i ≤ p ∧ p < E i := by
  intro i
  have hsplit : rmBuild MINV MAXV S E N =
      if N = 0 then rmEmpty else buildCore MINV MAXV S E N := rfl
  by_cases hN : N = 0
  · subst hN
    rw [hsplit, if_pos rfl]
    have : rmEmpty.Query p = [] := rfl
    rw [this]
    simp
  · rw [hsplit, if_neg hN]
    have hq : (buildCore MINV MAXV S E N).Query p =
        queryTab (buildCore MINV MAXV S E N).Tab (buildCore MINV MAXV S E N).IList p := rfl
    have hbc := buildCore_eq MINV MAXV S E N
    have hTab : (buildCore MINV MAXV S E N).Tab =
        (if preFlag MINV S (List.insertionSort (fun i j => S i ≤ S j) (filteredIdx S E N))
          then [MINV] else []) ++ allVals S E (Fset S E N) ++
        (if postFlag MAXV E (List.insertionSort (fun i j => E i ≤ E j) (filteredIdx S E N))
          then [MAXV] else []) := by rw [hbc]
    have hIL : (buildCore MINV MAXV S E N).IList =
        (if preFlag MINV S (List.insertionSort (fun i j => S i ≤ S j) (filteredIdx S E N))
          then [([] : List ℕ)] else []) ++
        ((allVals S E (Fset S E N)).map fun v => (asOf S E (Fset S E N) v).sort (· ≤ ·)) ++
        (if postFlag MAXV E (List.insertionSort (fun i j => E i ≤ E j) (filteredIdx S E N))
          then [([] : List ℕ)] else []) := by rw [hbc]
    have hbounds := valSet_bounds MINV MAXV S E N hSE hdom
    have hMM : MINV ≤ MAXV := by omega
    have hmemtab : ∀ w ∈ valSet S E (Fset S E N), w ∈ (buildCore MINV MAXV S E N).Tab := by
      intro w hw
      rw [hTab]
      exact List.mem_append.mpr (Or.inl (List.mem_append.mpr (Or.inr
        ((mem_allVals S E _ w).mpr hw))))
    have hsorted : ((buildCore MINV MAXV S E N).Tab).Sorted (· ≤ ·) := by
      rw [hTab]
      exact sorted_append3_le MINV MAXV _ _ _ (allVals_sorted_le S E _)
        (fun w hw => (hbounds w ((mem_allVals S E _ w).mp hw)).1)
        (fun w hw => (hbounds w ((mem_allVals S E _ w).mp hw)).2) hMM
    have hF2 : List.Forall₂ (fun t e => e = (bruteSet S E N t).sort (· ≤ ·))
        (buildCore MINV MAXV S E N).Tab (buildCore MINV MAXV S E N).IList := by
      rw [hTab, hIL]
      refine forall₂_append_parts (forall₂_append_parts ?_ ?_) ?_
      · refine forall₂_flag _ MINV [] ?_
        intro hb
        rw [brute_minv_empty MINV S E N ?_, Finset.sort_empty]
        intro x hx
        exact preFlag_eq_true MINV S _ hb x ((mem_ssort S E N x).mpr hx) (sortKey_sorted S _)
      · refine forall₂_map_self _ _ ?_
        intro v _
        rw [asOf_eq_brute S E N hSE v]
      · refine forall₂_flag _ MAXV [] ?_
        intro _
        rw [brute_maxv_empty MINV MAXV S E N hdom, Finset.sort_empty]
    have hhead : ((buildCore MINV MAXV S E N).Tab).getD 0 0 ≤ p :=
      buildCore_tab_getD_zero_le MINV MAXV S E N p hp1
    have hex : ∃ w ∈ (buildCore MINV MAXV S E N).Tab, p ≤ w := by
      cases hqf : postFlag MAXV E (List.insertionSort (fun i j => E i ≤ E j) (filteredIdx S E N))
      · obtain ⟨j, hj, hMle⟩ := postFlag_eq_false MAXV E _ hqf
        have hjF : j ∈ Fset S E N :=
          (mem_esort S E N j).mp (List.mem_of_mem_getLast? hj)
        refine ⟨E j, hmemtab _ (Finset.mem_union_right _ (Finset.mem_image_of_mem E hjF)), ?_⟩
        omega
      · refine ⟨MAXV, ?_, hp2⟩
        rw [hTab, hqf]
        simp
    have hconst : ∀ v, v ∈ (buildCore MINV MAXV S E N).Tab → v ≤ p →
        (∀ u ∈ (buildCore MINV MAXV S E N).Tab, u ≤ p → u ≤ v) →
        (bruteSet S E N p).sort (· ≤ ·) = (bruteSet S E N v).sort (· ≤ ·) := by
      intro v _ hvp hmax
      have hPB : bruteSet S E N p = bruteSet S E N v := by
        ext x
        simp only [bruteSet, Finset.mem_filter, Finset.mem_range]
        constructor
        · rintro ⟨hxN, hSp, hpE⟩
          have hxF : x ∈ Fset S E N := (mem_Fset S E N x).mpr ⟨hxN, by omega⟩
          have hSv : S x ≤ v := hmax (S x)
            (hmemtab _ (Finset.mem_union_left _ (Finset.mem_image_of_mem S hxF))) hSp
          exact ⟨hxN, hSv, by omega⟩
        · rintro ⟨hxN, hSv, hvE⟩
          have hxF : x ∈ Fset S E N := (mem_Fset S E N x).mpr ⟨hxN, by omega⟩
          refine ⟨hxN, by omega, ?_⟩
          by_contra hc
          push_neg at hc
          have := hmax (E x)
            (hmemtab _ (Finset.mem_union_right _ (Finset.mem_image_of_mem E hxF))) hc
          omega
      rw [hPB]
    rw [hq, queryTab_eq _ _ (fun x => (bruteSet S E N x).sort (· ≤ ·)) p hsorted hF2
      hhead hex hconst]
    simp [Finset.mem_sort, bruteSet, Finset.mem_filter, Finset.mem_range]

/-- Witness for `query_eq_brute` at a concrete input. -/
theorem query_eq_brute_witness :
    0 ∈ (rmBuild intMinV intMaxV (fun _ => (0 : Int)) (fun _ => (1 : Int)) 1).Query 0 ↔
      0 < 1 ∧ (0 : Int) ≤ 0 ∧ (0 : Int) < 1 :=
  query_eq_brute intMinV intMaxV (fun _ => (0 : Int)) (fun _ => (1 : Int)) 1 0
    (fun _ _ => show (0 : Int) ≤ (1 : Int) by decide)
    (fun _ _ => ⟨show intMinV ≤ (0 : Int) by decide, show (1 : Int) ≤ intMaxV by decide⟩)
    (by decide) (by decide) 0

/-! ## Claim C2: the spec's concrete scenario -/

/-- The start values of the spec's concrete scenario (`S=[0,5,10,15]`). -/
def S4ex : ℕ → Int := fun i => ([0, 5, 10, 15] : List Int).getD i 0

/-- The end values of the spec's concrete scenario (`E=[8,7,13,25]`). -/
def E4ex : ℕ → Int := fun i => ([8, 7, 13, 25] : List Int).getD i 0

/-- C2 counterexample: in the concrete scenario the spec asserts
`Query(8) = {1}`, but interval 1 is `[5, 7)`, which does not contain 8, and
indeed the code returns the empty set at 8 (interval 0 = `[0, 8)` is
half-open).  The claim, as stated, is false. -/
theorem concrete_scenario_query8 :
    (rmBuild intMinV intMaxV S4ex E4ex 4).Query 8 = [] ∧
      ¬((rmBuild intMinV intMaxV S4ex E4ex 4).Query 8 = [1]) := by decide

/-- C2 amended: the concrete scenario with `Query(8) = {}` (all other listed
query results are as the spec states). -/
theorem concrete_scenario_amended :
    (rmBuild intMinV intMaxV S4ex E4ex 4).Query (-1) = [] ∧
    (rmBuild intMinV intMaxV S4ex E4ex 4).Query 0 = [0] ∧
    (rmBuild intMinV intMaxV S4ex E4ex 4).Query 6 = [0, 1] ∧
    (rmBuild intMinV intMaxV S4ex E4ex 4).Query 8 = [] ∧
    (rmBuild intMinV intMaxV S4ex E4ex 4).Query 10 = [2] ∧
    (rmBuild intMinV intMaxV S4ex E4ex 4).Query 13 = [] ∧
    (rmBuild intMinV intMaxV S4ex E4ex 4).Query 20 = [3] ∧
    (rmBuild intMinV intMaxV S4ex E4ex 4).Query 25 = [] := by decide

/-! ## Claim C3: Build with null/zero input -/

/-- C3.  `Build` with null array pointers (or zero count) returns early at
the `nullptr == S || nullptr == E || N == 0` guard and leaves the previous
tables untouched: on an instance already built from a non-empty interval
list, a subsequent `Build(null, null, 0)` keeps the old contents, so
`Query(0)` still returns `{0}` rather than the empty set the claim
requires. -/
theorem build_null_keeps_prior_state :
    rmBuildFrom intMinV intMaxV (rmBuild intMinV intMaxV S4ex E4ex 4) none none 0 =
      rmBuild intMinV intMaxV S4ex E4ex 4 ∧
    (rmBuildFrom intMinV intMaxV (rmBuild intMinV intMaxV S4ex E4ex 4) none none 0).Query 0 =
      [0] := by
  exact ⟨rfl, by decide⟩

/-! ## Claim C6: degenerate intervals never appear -/

theorem getD_cases (il : List (List ℕ)) (k : ℕ) :
    il.getD k [] = [] ∨ il.getD k [] ∈ il := by
  by_cases h : k < il.length
  · right
    rw [List.getD_eq_getElem il [] h]
    exact List.getElem_mem h
  · left
    exact List.getD_eq_default il [] (by omega)

theorem queryTab_result (tab : List Int) (il : List (List ℕ)) (p : Int) :
    queryTab tab il p = [] ∨ queryTab tab il p ∈ il := by
  have hq : queryTab tab il p = (if (tab.findIdx fun x => decide (p ≤ x)) < tab.length then
      (if p < tab.getD (tab.findIdx fun x => decide (p ≤ x)) 0
        then il.getD ((tab.findIdx fun x => decide (p ≤ x)) - 1) []
        else il.getD (tab.findIdx fun x => decide (p ≤ x)) []) else []) := rfl
  rw [hq]
  by_cases h1 : (tab.findIdx fun x => decide (p ≤ x)) < tab.length
  · rw [if_pos h1]
    by_cases h2 : p < tab.getD (tab.findIdx fun x => decide (p ≤ x)) 0
    · rw [if_pos h2]
      exact getD_cases il _
    · rw [if_neg h2]
      exact getD_cases il _
  · rw [if_neg h1]
    exact Or.inl rfl

theorem mem_flag_entry (b : Bool) (l : List ℕ) (h : l ∈ (if b then [([] : List ℕ)] else [])) :
    l = [] := by
  cases b
  · simp at h
  · simp at h
    exact h

theorem buildWith_ilist_mem (MINV MAXV : Int) (S E : ℕ → Int) (ss se : List ℕ)
    (l : List ℕ) (hl : l ∈ (buildWith MINV MAXV S E ss se).IList) (x : ℕ) (hx : x ∈ l) :
    x ∈ ss := by
  have hshape : (buildWith MINV MAXV S E ss se).IList =
      (if preFlag MINV S ss then [([] : List ℕ)] else []) ++
        (sweepAux S E (ss.length + se.length) ss se []).map Prod.snd ++
        (if postFlag MAXV E se then [([] : List ℕ)] else []) := rfl
  rw [hshape] at hl
  rcases List.mem_append.mp hl with h1 | h1
  · rcases List.mem_append.mp h1 with h2 | h2
    · rw [mem_flag_entry _ l h2] at hx
      exact absurd hx (List.not_mem_nil x)
    · obtain ⟨pr, hpr, rfl⟩ := List.mem_map.mp h2
      rcases (sweepAux_snd S E _ ss se [] (by simp) pr hpr).2 x hx with h3 | h3
      · exact absurd h3 (List.not_mem_nil x)
      · exact h3
  · rw [mem_flag_entry _ l h1] at hx
    exact absurd hx (List.not_mem_nil x)

/-- C6.  For every input interval list and every query point, a degenerate
interval (`start[i] == end[i]`) never appears in the result of `Query`: it
is filtered out before the sweep, and every returned set is either the empty
sentinel or a snapshot of the active set, whose members all come from the
filtered index list. -/
theorem degenerate_not_in_query (MINV MAXV : Int) (S E : ℕ → Int) (N : ℕ) (p : Int)
    (i : ℕ) (hdeg : S i = E i) : i ∉ (rmBuild MINV MAXV S E N).Query p := by
  intro hmem
  have hsplit : rmBuild MINV MAXV S E N =
      if N = 0 then rmEmpty else buildCore MINV MAXV S E N := rfl
  by_cases hN : N = 0
  · rw [hsplit, if_pos hN] at hmem
    exact absurd hmem (List.not_mem_nil i)
  · rw [hsplit, if_neg hN] at hmem
    have hq : (buildCore MINV MAXV S E N).Query p =
        queryTab (buildCore MINV MAXV S E N).Tab (buildCore MINV MAXV S E N).IList p := rfl
    rw [hq] at hmem
    rcases queryTab_result (buildCore MINV MAXV S E N).Tab
        (buildCore MINV MAXV S E N).IList p with h1 | h1
    · rw [h1] at hmem
      exact absurd hmem (List.not_mem_nil i)
    · have hss : i ∈ List.insertionSort (fun a b => S a ≤ S b) (filteredIdx S E N) :=
        buildWith_ilist_mem MINV MAXV S E _ _ _ h1 i hmem
      have := (mem_ssort S E N i).mp hss
      rw [mem_Fset] at this
      exact this.2 hdeg

/-- Witness for `degenerate_not_in_query` at a concrete input. -/
theorem degenerate_not_in_query_witness :
    0 ∉ (rmBuild intMinV intMaxV (fun _ => (7 : Int)) (fun _ => (7 : Int)) 1).Query 7 :=
  degenerate_not_in_query intMinV intMaxV (fun _ => (7 : Int)) (fun _ => (7 : Int)) 1 7 0 rfl

/-! ## Claim C8: table sizes never exceed the reserved capacity -/

/-- C8.  For every input, the number of entries appended to the breakpoint
table and to the parallel active-set table is at most `2*NF + 2` (one entry
per start and end of each of the `NF` filtered intervals, plus the two
sentinels), so every capacity assertion of the `PUSHBACK` macro holds for
the reservations `Tab.reserve(NF*2+2)`, `IList.reserve(NF*2+2)`,
`SS.reserve(N)` and `SE.reserve(N)`. -/
theorem table_size_le (MINV MAXV : Int) (S E : ℕ → Int) (N : ℕ) :
    (buildCore MINV MAXV S E N).Tab.length ≤ 2 * (filteredIdx S E N).length + 2 ∧
    (buildCore MINV MAXV S E N).IList.length ≤ 2 * (filteredIdx S E N).length + 2 ∧
    (filteredIdx S E N).length ≤ N := by
  have hssl : (List.insertionSort (fun i j => S i ≤ S j) (filteredIdx S E N)).length =
      (filteredIdx S E N).length := (List.perm_insertionSort _ _).length_eq
  have hsel : (List.insertionSort (fun i j => E i ≤ E j) (filteredIdx S E N)).length =
      (filteredIdx S E N).length := (List.perm_insertionSort _ _).length_eq
  have hbody := sweepAux_length_le S E
    ((filteredIdx S E N).length + (filteredIdx S E N).length)
    (List.insertionSort (fun i j => S i ≤ S j) (filteredIdx S E N))
    (List.insertionSort (fun i j => E i ≤ E j) (filteredIdx S E N)) []
  have hflag1 : ∀ b : Bool, (if b then [MINV] else []).length ≤ 1 := by
    intro b; cases b <;> simp
  have hflag2 : ∀ b : Bool, (if b then [MAXV] else []).length ≤ 1 := by
    intro b; cases b <;> simp
  have hflag3 : ∀ b : Bool, (if b then [([] : List ℕ)] else []).length ≤ 1 := by
    intro b; cases b <;> simp
  have hTab : (buildCore MINV MAXV S E N).Tab.length =
      (if preFlag MINV S (List.insertionSort (fun i j => S i ≤ S j) (filteredIdx S E N))
        then [MINV] else []).length +
      (sweepAux S E ((filteredIdx S E N).length + (filteredIdx S E N).length)
        (List.insertionSort (fun i j => S i ≤ S j) (filteredIdx S E N))
        (List.insertionSort (fun i j => E i ≤ E j) (filteredIdx S E N)) []).length +
      (if postFlag MAXV E (List.insertionSort (fun i j => E i ≤ E j) (filteredIdx S E N))
        then [MAXV] else []).length := by
    show ((if _ then [MINV] else []) ++ _ ++ (if _ then [MAXV] else [])).length = _
    simp only [List.length_append, List.length_map, List.length_insertionSort]
  have hIL : (buildCore MINV MAXV S E N).IList.length =
      (if preFlag MINV S (List.insertionSort (fun i j => S i ≤ S j) (filteredIdx S E N))
        then [([] : List ℕ)] else []).length +
      (sweepAux S E ((filteredIdx S E N).length + (filteredIdx S E N).length)
        (List.insertionSort (fun i j => S i ≤ S j) (filteredIdx S E N))
        (List.insertionSort (fun i j => E i ≤ E j) (filteredIdx S E N)) []).length +
      (if postFlag MAXV E (List.insertionSort (fun i j => E i ≤ E j) (filteredIdx S E N))
        then [([] : List ℕ)] else []).length := by
    show ((if _ then [([] : List ℕ)] else []) ++ _ ++
      (if _ then [([] : List ℕ)] else [])).length = _
    simp only [List.length_append, List.length_map, List.length_insertionSort]
  have hfil : (filteredIdx S E N).length ≤ N := by
    have := List.length_filter_le (fun i => decide (S i ≠ E i)) (List.range N)
    simpa [filteredIdx, List.length_range] using this
  refine ⟨?_, ?_, hfil⟩
  · rw [hTab]
    have h1 := hflag1 (preFlag MINV S
      (List.insertionSort (fun i j => S i ≤ S j) (filteredIdx S E N)))
    have h2 := hflag2 (postFlag MAXV E
      (List.insertionSort (fun i j => E i ≤ E j) (filteredIdx S E N)))
    omega
  · rw [hIL]
    have h1 := hflag3 (preFlag MINV S
      (List.insertionSort (fun i j => S i ≤ S j) (filteredIdx S E N)))
    have h2 := hflag3 (postFlag MAXV E
      (List.insertionSort (fun i j => E i ≤ E j) (filteredIdx S E N)))
    omega

/-! ## Claim C9: query results are strictly ascending -/

theorem buildWith_ilist_sorted (MINV MAXV : Int) (S E : ℕ → Int) (ss se : List ℕ)
    (l : List ℕ) (hl : l ∈ (buildWith MINV MAXV S E ss se).IList) : l.Sorted (· < ·) := by
  have hshape : (buildWith MINV MAXV S E ss se).IList =
      (if preFlag MINV S ss then [([] : List ℕ)] else []) ++
        (sweepAux S E (ss.length + se.length) ss se []).map Prod.snd ++
        (if postFlag MAXV E se then [([] : List ℕ)] else []) := rfl
  rw [hshape] at hl
  rcases List.mem_append.mp hl with h1 | h1
  · rcases List.mem_append.mp h1 with h2 | h2
    · rw [mem_flag_entry _ l h2]
      exact List.sorted_nil
    · obtain ⟨pr, hpr, rfl⟩ := List.mem_map.mp h2
      exact (sweepAux_snd S E _ ss se [] (by simp) pr hpr).1
  · rw [mem_flag_entry _ l h1]
    exact List.sorted_nil

/-- C9.  Every set of interval indices returned by `Query` is listed in
strictly ascending order of original index, for every built structure and
every query point: the snapshots are taken from the ordered active set, and
the sentinel entries are empty. -/
theorem query_sorted_ascending (MINV MAXV : Int) (S E : ℕ → Int) (N : ℕ) (p : Int) :
    ((rmBuild MINV MAXV S E N).Query p).Sorted (· < ·) := by
  have hsplit : rmBuild MINV MAXV S E N =
      if N = 0 then rmEmpty else buildCore MINV MAXV S E N := rfl
  by_cases hN : N = 0
  · rw [hsplit, if_pos hN]
    exact List.sorted_nil
  · rw [hsplit, if_neg hN]
    have hq : (buildCore MINV MAXV S E N).Query p =
        queryTab (buildCore MINV MAXV S E N).Tab (buildCore MINV MAXV S E N).IList p := rfl
    rw [hq]
    rcases queryTab_result (buildCore MINV MAXV S E N).Tab
        (buildCore MINV MAXV S E N).IList p with h1 | h1
    · rw [h1]
      exact List.sorted_nil
    · exact buildWith_ilist_sorted MINV MAXV S E _ _ _ h1

/-! ## Claim C10: the lookup never reads out of bounds -/

/-- C10.  `Query` is total at the public interface: on a never-built
instance it returns the empty set through the end-of-table branch, the two
tables always have equal length after `Build`, and for every representable
query point `p` (`MINV ≤ p`) the first breakpoint is `≤ p`, so whenever the
lower bound strictly exceeds `p` its index is at least 1 and the
`IList[k-1]` access is in bounds. -/
theorem query_access_in_bounds (MINV MAXV : Int) (S E : ℕ → Int) (N : ℕ) (p : Int)
    (hp1 : MINV ≤ p) :
    rmEmpty.Query p = [] ∧
    (buildCore MINV MAXV S E N).IList.length = (buildCore MINV MAXV S E N).Tab.length ∧
    ((buildCore MINV MAXV S E N).Tab.findIdx (fun x => decide (p ≤ x)) <
        (buildCore MINV MAXV S E N).Tab.length →
      p < (buildCore MINV MAXV S E N).Tab.getD
          ((buildCore MINV MAXV S E N).Tab.findIdx (fun x => decide (p ≤ x))) 0 →
      1 ≤ (buildCore MINV MAXV S E N).Tab.findIdx (fun x => decide (p ≤ x)) ∧
        (buildCore MINV MAXV S E N).Tab.findIdx (fun x => decide (p ≤ x)) - 1 <
          (buildCore MINV MAXV S E N).IList.length) := by
  have hlen : (buildCore MINV MAXV S E N).IList.length =
      (buildCore MINV MAXV S E N).Tab.length := by
    show ((if _ then [([] : List ℕ)] else []) ++ _ ++
        (if _ then [([] : List ℕ)] else [])).length =
      ((if _ then [MINV] else []) ++ _ ++ (if _ then [MAXV] else [])).length
    cases preFlag MINV S (List.insertionSort (fun i j => S i ≤ S j) (filteredIdx S E N)) <;>
      cases postFlag MAXV E (List.insertionSort (fun i j => E i ≤ E j) (filteredIdx S E N)) <;>
      simp [List.length_append, List.length_map]
  refine ⟨rfl, hlen, ?_⟩
  intro hk hlt
  have hhead := buildCore_tab_getD_zero_le MINV MAXV S E N p hp1
  have hk0 : (buildCore MINV MAXV S E N).Tab.findIdx (fun x => decide (p ≤ x)) ≠ 0 := by
    intro h0
    rw [h0] at hlt
    omega
  exact ⟨by omega, by omega⟩

/-- Witness for `query_access_in_bounds` at a concrete input. -/
theorem query_access_in_bounds_witness :
    rmEmpty.Query 0 = [] ∧
    (buildCore intMinV intMaxV (fun _ => (0 : Int)) (fun _ => (1 : Int)) 1).IList.length =
      (buildCore intMinV intMaxV (fun _ => (0 : Int)) (fun _ => (1 : Int)) 1).Tab.length ∧
    ((buildCore intMinV intMaxV (fun _ => (0 : Int)) (fun _ => (1 : Int)) 1).Tab.findIdx
        (fun x => decide ((0 : Int) ≤ x)) <
        (buildCore intMinV intMaxV (fun _ => (0 : Int)) (fun _ => (1 : Int)) 1).Tab.length →
      (0 : Int) < (buildCore intMinV intMaxV (fun _ => (0 : Int)) (fun _ => (1 : Int)) 1).Tab.getD
          ((buildCore intMinV intMaxV (fun _ => (0 : Int)) (fun _ => (1 : Int)) 1).Tab.findIdx
            (fun x => decide ((0 : Int) ≤ x))) 0 →
      1 ≤ (buildCore intMinV intMaxV (fun _ => (0 : Int)) (fun _ => (1 : Int)) 1).Tab.findIdx
          (fun x => decide ((0 : Int) ≤ x)) ∧
        (buildCore intMinV intMaxV (fun _ => (0 : Int)) (fun _ => (1 : Int)) 1).Tab.findIdx
            (fun x => decide ((0 : Int) ≤ x)) - 1 <
          (buildCore intMinV intMaxV (fun _ => (0 : Int)) (fun _ => (1 : Int)) 1).IList.length) :=
  query_access_in_bounds intMinV intMaxV (fun _ => (0 : Int)) (fun _ => (1 : Int)) 1 0
    (by decide)

/-! ## Claim C4: strict monotonicity of the breakpoint table -/

/-- Strict sortedness of a value list bracketed by optional sentinels, with
bounds needed only when the corresponding sentinel is present. -/
theorem sorted_append3_lt (MINV MAXV : Int) (vals : List Int) (b1 b2 : Bool)
    (hv : vals.Sorted (· < ·))
    (hlo : b1 = true → ∀ w ∈ vals, MINV < w)
    (hhi : b2 = true → ∀ w ∈ vals, w < MAXV)
    (hMM : MINV < MAXV) :
    ((if b1 then [MINV] else []) ++ vals ++ (if b2 then [MAXV] else [])).Sorted (· < ·) := by
  refine List.pairwise_append.mpr ⟨List.pairwise_append.mpr ⟨?_, hv, ?_⟩, ?_, ?_⟩
  · cases b1 <;> simp
  · intro a ha b hb
    cases b1
    · simp at ha
    · simp at ha
      subst ha
      exact hlo rfl b hb
  · cases b2 <;> simp
  · intro a ha b hb
    cases b2
    · simp at hb
    · simp at hb
      subst hb
      rcases List.mem_append.mp ha with h1 | h1
      · cases b1
        · simp at h1
        · simp at h1
          subst h1
          exact hMM
      · exact hhi rfl a h1

/-- C4 counterexample: for the malformed interval `[5, INT_MIN)` the table
is `[INT_MIN, INT_MIN, 5, INT_MAX]` — the prepended minimum sentinel is
duplicated by the sweep value `INT_MIN` (the interval's end), so the table
is not strictly increasing and has equal adjacent values.  (In a debug
build the assertion on line 79 fires on this input.) -/
theorem tab_not_strictly_increasing :
    (buildCore intMinV intMaxV (fun _ => (5 : Int)) (fun _ => intMinV) 1).Tab =
      [intMinV, intMinV, 5, intMaxV] ∧
    (buildCore intMinV intMaxV (fun _ => (5 : Int)) (fun _ => intMinV) 1).Tab.getD 0 0 =
      (buildCore intMinV intMaxV (fun _ => (5 : Int)) (fun _ => intMinV) 1).Tab.getD 1 0 ∧
    ¬ (buildCore intMinV intMaxV (fun _ => (5 : Int)) (fun _ => intMinV) 1).Tab.Sorted
        (· < ·) := by decide

/-- C4 amended: after every `Build` on an input with `start[i] <= end[i]`
for all `i`, the breakpoint table is strictly increasing (so in particular
has no duplicate adjacent values). -/
theorem tab_sorted_lt (MINV MAXV : Int) (S E : ℕ → Int) (N : ℕ)
    (hSE : ∀ i, i < N → S i ≤ E i) (hMM : MINV < MAXV) :
    (buildCore MINV MAXV S E N).Tab.Sorted (· < ·) := by
  have hTab : (buildCore MINV MAXV S E N).Tab =
      (if preFlag MINV S (List.insertionSort (fun i j => S i ≤ S j) (filteredIdx S E N))
        then [MINV] else []) ++ allVals S E (Fset S E N) ++
      (if postFlag MAXV E (List.insertionSort (fun i j => E i ≤ E j) (filteredIdx S E N))
        then [MAXV] else []) := by rw [buildCore_eq]
  have hlt : ∀ x ∈ Fset S E N, S x < E x := by
    intro x hx
    obtain ⟨hxN, hne⟩ := (mem_Fset S E N x).mp hx
    have := hSE x hxN
    omega
  rw [hTab]
  refine sorted_append3_lt MINV MAXV _ _ _ (allVals_sorted_lt S E _) ?_ ?_ hMM
  · intro hb w hw
    rcases Finset.mem_union.mp ((mem_allVals S E _ w).mp hw) with h1 | h1
    · obtain ⟨x, hx, rfl⟩ := Finset.mem_image.mp h1
      exact preFlag_eq_true MINV S _ hb x ((mem_ssort S E N x).mpr hx) (sortKey_sorted S _)
    · obtain ⟨x, hx, rfl⟩ := Finset.mem_image.mp h1
      have h2 := preFlag_eq_true MINV S _ hb x ((mem_ssort S E N x).mpr hx)
        (sortKey_sorted S _)
      have h3 := hlt x hx
      omega
  · intro hb w hw
    rcases Finset.mem_union.mp ((mem_allVals S E _ w).mp hw) with h1 | h1
    · obtain ⟨x, hx, rfl⟩ := Finset.mem_image.mp h1
      have h2 := postFlag_eq_true MAXV E _ hb x ((mem_esort S E N x).mpr hx)
        (sortKey_sorted E _)
      have h3 := hlt x hx
      omega
    · obtain ⟨x, hx, rfl⟩ := Finset.mem_image.mp h1
      exact postFlag_eq_true MAXV E _ hb x ((mem_esort S E N x).mpr hx) (sortKey_sorted E _)

/-- Witness for `tab_sorted_lt` at a concrete input. -/
theorem tab_sorted_lt_witness :
    (buildCore intMinV intMaxV (fun _ => (0 : Int)) (fun _ => (1 : Int)) 1).Tab.Sorted
      (· < ·) :=
  tab_sorted_lt intMinV intMaxV (fun _ => (0 : Int)) (fun _ => (1 : Int)) 1
    (fun _ _ => show (0 : Int) ≤ (1 : Int) by decide) (by decide)

/-! ## Claim C5: adjacent active-set entries -/

/-- C5 counterexample: for the single well-formed interval `[0, 1)` the
active-set table is `[[], [0], [], []]` — the final appended maximum-sentinel
entry duplicates the (empty) snapshot taken after the last interval closed,
so `IList[3] = IList[2]`.  The construction-time assertion (line 80) never
checks the sentinel appends of lines 83–86. -/
theorem ilist_adjacent_duplicate :
    (buildCore intMinV intMaxV (fun _ => (0 : Int)) (fun _ => (1 : Int)) 1).IList =
      [[], [0], [], []] ∧
    (buildCore intMinV intMaxV (fun _ => (0 : Int)) (fun _ => (1 : Int)) 1).IList.getD 3 [0] =
      (buildCore intMinV intMaxV (fun _ => (0 : Int)) (fun _ => (1 : Int)) 1).IList.getD 2
        [0] := by decide

theorem chain'_dropLast {α : Type} {R : α → α → Prop} {l : List α} (h : l.Chain' R) :
    l.dropLast.Chain' R := by
  rw [List.chain'_iff_get] at h ⊢
  intro i hi
  have hlen : l.dropLast.length = l.length - 1 := List.length_dropLast l
  simp only [List.get_eq_getElem, List.getElem_dropLast]
  exact h i (by omega)

/-- Adjacent event values have different covering sets (when no interval is
malformed): the larger of the two is some interval's start (which covers it
but not the smaller value) or some interval's end (which covers the smaller
value but not it). -/
theorem snap_chain_ne (S E : ℕ → Int) (N : ℕ) (hSE : ∀ i, i < N → S i ≤ E i) :
    (allVals S E (Fset S E N)).Chain' fun v w =>
      (asOf S E (Fset S E N) v).sort (· ≤ ·) ≠ (asOf S E (Fset S E N) w).sort (· ≤ ·) := by
  have hlt : ∀ x ∈ Fset S E N, S x < E x := by
    intro x hx
    obtain ⟨hxN, hne⟩ := (mem_Fset S E N x).mp hx
    have := hSE x hxN
    omega
  have hsorted := allVals_sorted_lt S E (Fset S E N)
  rw [List.chain'_iff_get]
  intro k hk
  have hk1 : k < (allVals S E (Fset S E N)).length := by omega
  have hk2 : k + 1 < (allVals S E (Fset S E N)).length := by omega
  have hvw : (allVals S E (Fset S E N)).get ⟨k, hk1⟩ <
      (allVals S E (Fset S E N)).get ⟨k + 1, hk2⟩ :=
    List.pairwise_iff_get.mp hsorted ⟨k, hk1⟩ ⟨k + 1, hk2⟩ (by
      exact Fin.mk_lt_mk.mpr (Nat.lt_succ_self k))
  have hgap := List.chain'_iff_get.mp (sorted_chain'_gap hsorted) k hk
  have hwmem : (allVals S E (Fset S E N)).get ⟨k + 1, hk2⟩ ∈ valSet S E (Fset S E N) :=
    (mem_allVals S E _ _).mp (List.get_mem _ _ hk2)
  intro heq
  rcases Finset.mem_union.mp hwmem with h1 | h1
  · -- the larger adjacent value is some interval's start
    obtain ⟨x, hx, hSx⟩ := Finset.mem_image.mp h1
    have hxin : x ∈ asOf S E (Fset S E N) ((allVals S E (Fset S E N)).get ⟨k + 1, hk2⟩) := by
      refine Finset.mem_filter.mpr ⟨hx, by omega, Or.inl ?_⟩
      have := hlt x hx
      omega
    have hxout : x ∉ asOf S E (Fset S E N) ((allVals S E (Fset S E N)).get ⟨k, hk1⟩) := by
      intro hmem
      obtain ⟨_, hle, _⟩ := Finset.mem_filter.mp hmem
      omega
    have hx1 : x ∈ (asOf S E (Fset S E N) ((allVals S E (Fset S E N)).get ⟨k + 1, hk2⟩)).sort
        (· ≤ ·) := (Finset.mem_sort _).mpr hxin
    rw [← heq] at hx1
    exact hxout ((Finset.mem_sort _).mp hx1)
  · -- the larger adjacent value is some interval's end
    obtain ⟨x, hx, hEx⟩ := Finset.mem_image.mp h1
    have hSlt : S x < (allVals S E (Fset S E N)).get ⟨k + 1, hk2⟩ := by
      have := hlt x hx
      omega
    have hSle : S x ≤ (allVals S E (Fset S E N)).get ⟨k, hk1⟩ := by
      have hSmem : S x ∈ valSet S E (Fset S E N) :=
        Finset.mem_union_left _ (Finset.mem_image_of_mem S hx)
      have hSav : S x ∈ allVals S E (Fset S E N) := (mem_allVals S E _ _).mpr hSmem
      have := hgap (S x) hSav
      omega
    have hxin : x ∈ asOf S E (Fset S E N) ((allVals S E (Fset S E N)).get ⟨k, hk1⟩) := by
      refine Finset.mem_filter.mpr ⟨hx, hSle, Or.inl (by omega)⟩
    have hxout : x ∉ asOf S E (Fset S E N) ((allVals S E (Fset S E N)).get ⟨k + 1, hk2⟩) := by
      intro hmem
      obtain ⟨_, _, hdisj⟩ := Finset.mem_filter.mp hmem
      have := hlt x hx
      rcases hdisj with h2 | h2 <;> omega
    have hx1 : x ∈ (asOf S E (Fset S E N) ((allVals S E (Fset S E N)).get ⟨k, hk1⟩)).sort
        (· ≤ ·) := (Finset.mem_sort _).mpr hxin
    rw [heq] at hx1
    exact hxout ((Finset.mem_sort _).mp hx1)

/-- C5 amended: after every `Build` on an input with `start[i] <= end[i]`,
no two adjacent active-set table entries are identical except possibly the
final pair: the appended maximum-sentinel entry (the empty set) duplicates
its predecessor whenever the sweep's last snapshot is already empty.
Formally, the table with its last entry removed has pairwise-distinct
adjacent entries. -/
theorem ilist_chain_ne (MINV MAXV : Int) (S E : ℕ → Int) (N : ℕ)
    (hSE : ∀ i, i < N → S i ≤ E i) :
    ((buildCore MINV MAXV S E N).IList.dropLast).Chain' (· ≠ ·) := by
  have hIL : (buildCore MINV MAXV S E N).IList =
      (if preFlag MINV S (List.insertionSort (fun i j => S i ≤ S j) (filteredIdx S E N))
        then [([] : List ℕ)] else []) ++
      ((allVals S E (Fset S E N)).map fun v => (asOf S E (Fset S E N) v).sort (· ≤ ·)) ++
      (if postFlag MAXV E (List.insertionSort (fun i j => E i ≤ E j) (filteredIdx S E N))
        then [([] : List ℕ)] else []) := by rw [buildCore_eq]
  have hlt : ∀ x ∈ Fset S E N, S x < E x := by
    intro x hx
    obtain ⟨hxN, hne⟩ := (mem_Fset S E N x).mp hx
    have := hSE x hxN
    omega
  have hsnap : ((allVals S E (Fset S E N)).map fun v =>
      (asOf S E (Fset S E N) v).sort (· ≤ ·)).Chain' (· ≠ ·) :=
    (List.chain'_map _).mpr (snap_chain_ne S E N hSE)
  have hmain : ((if preFlag MINV S (List.insertionSort (fun i j => S i ≤ S j)
      (filteredIdx S E N)) then [([] : List ℕ)] else []) ++
      ((allVals S E (Fset S E N)).map fun v =>
        (asOf S E (Fset S E N) v).sort (· ≤ ·))).Chain' (· ≠ ·) := by
    cases hpf : preFlag MINV S (List.insertionSort (fun i j => S i ≤ S j) (filteredIdx S E N))
    · simpa using hsnap
    · rw [if_pos rfl, List.singleton_append]
      rcases hAV : allVals S E (Fset S E N) with _ | ⟨v1, rest⟩
      · simp
      · rw [List.map_cons]
        refine List.chain'_cons.mpr ⟨?_, by rw [hAV, List.map_cons] at hsnap; exact hsnap⟩
        -- the first event value is some interval's start, whose interval
        -- is in the first snapshot, so the snapshot is non-empty
        have hv1mem : v1 ∈ valSet S E (Fset S E N) := by
          rw [← mem_allVals S E _ v1, hAV]
          exact List.mem_cons_self v1 rest
        have hv1min : ∀ u ∈ valSet S E (Fset S E N), v1 ≤ u := by
          intro u hu
          rw [← mem_allVals S E _ u, hAV] at hu
          rcases List.mem_cons.mp hu with rfl | hu
          · exact le_refl _
          · have hs := allVals_sorted_le S E (Fset S E N)
            rw [hAV] at hs
            exact (List.sorted_cons.mp hs).1 u hu
        obtain ⟨x, hx, hxval⟩ : ∃ x ∈ Fset S E N, S x = v1 := by
          rcases Finset.mem_union.mp hv1mem with h1 | h1
          · obtain ⟨x, hx, hxv⟩ := Finset.mem_image.mp h1
            exact ⟨x, hx, hxv⟩
          · obtain ⟨x, hx, hxv⟩ := Finset.mem_image.mp h1
            exfalso
            have h2 := hlt x hx
            have h3 := hv1min (S x)
              (Finset.mem_union_left _ (Finset.mem_image_of_mem S hx))
            omega
        have hxin : x ∈ asOf S E (Fset S E N) v1 := by
          refine Finset.mem_filter.mpr ⟨hx, by omega, Or.inl ?_⟩
          have := hlt x hx
          omega
        intro hemp
        have : x ∈ (asOf S E (Fset S E N) v1).sort (· ≤ ·) := (Finset.mem_sort _).mpr hxin
        rw [← hemp] at this
        exact absurd this (List.not_mem_nil x)
  rw [hIL]
  cases hqf : postFlag MAXV E (List.insertionSort (fun i j => E i ≤ E j) (filteredIdx S E N))
  · rw [show (if (false = true) then [([] : List ℕ)] else []) = ([] : List (List ℕ)) from rfl,
      List.append_nil]
    exact chain'_dropLast hmain
  · rw [show (if (true = true) then [([] : List ℕ)] else []) = [([] : List ℕ)] from rfl,
      List.dropLast_concat]
    exact hmain

/-- Witness for `ilist_chain_ne` at a concrete input. -/
theorem ilist_chain_ne_witness :
    ((buildCore intMinV intMaxV (fun _ => (0 : Int)) (fun _ => (1 : Int)) 1).IList.dropLast).Chain'
      (· ≠ ·) :=
  ilist_chain_ne intMinV intMaxV (fun _ => (0 : Int)) (fun _ => (1 : Int)) 1
    (fun _ _ => show (0 : Int) ≤ (1 : Int) by decide)

/-! ## Claim C7: independence of the tie order in the argsorts -/

theorem preFlag_eq_of_sorted_congr (MINV : Int) (S : ℕ → Int) (ss₁ ss₂ : List ℕ)
    (hm : ∀ x, x ∈ ss₁ ↔ x ∈ ss₂)
    (hs1 : ss₁.Sorted fun a b => S a ≤ S b) (hs2 : ss₂.Sorted fun a b => S a ≤ S b) :
    preFlag MINV S ss₁ = preFlag MINV S ss₂ := by
  rcases ss₁ with _ | ⟨i1, t1⟩ <;> rcases ss₂ with _ | ⟨i2, t2⟩
  · rfl
  · exact absurd ((hm i2).mpr (List.mem_cons_self i2 t2)) (List.not_mem_nil i2)
  · exact absurd ((hm i1).mp (List.mem_cons_self i1 t1)) (List.not_mem_nil i1)
  · have h12 : S i2 ≤ S i1 := by
      rcases List.mem_cons.mp ((hm i1).mp (List.mem_cons_self i1 t1)) with h | h
      · rw [h]
      · exact (List.sorted_cons.mp hs2).1 i1 h
    have h21 : S i1 ≤ S i2 := by
      rcases List.mem_cons.mp ((hm i2).mpr (List.mem_cons_self i2 t2)) with h | h
      · rw [h]
      · exact (List.sorted_cons.mp hs1).1 i2 h
    show decide (MINV < S i1) = decide (MINV < S i2)
    have : S i1 = S i2 := le_antisymm h21 h12
    rw [this]

theorem postFlag_eq_of_sorted_congr (MAXV : Int) (E : ℕ → Int) (se₁ se₂ : List ℕ)
    (hm : ∀ x, x ∈ se₁ ↔ x ∈ se₂)
    (ht1 : se₁.Sorted fun a b => E a ≤ E b) (ht2 : se₂.Sorted fun a b => E a ≤ E b) :
    postFlag MAXV E se₁ = postFlag MAXV E se₂ := by
  rcases h1 : se₁.getLast? with _ | j1 <;> rcases h2 : se₂.getLast? with _ | j2
  · rw [postFlag, postFlag, h1, h2]
  · rw [List.getLast?_eq_none_iff] at h1
    subst h1
    exact absurd ((hm j2).mpr (List.mem_of_mem_getLast? h2)) (List.not_mem_nil j2)
  · rw [List.getLast?_eq_none_iff] at h2
    subst h2
    exact absurd ((hm j1).mp (List.mem_of_mem_getLast? h1)) (List.not_mem_nil j1)
  · have h12 : E j1 ≤ E j2 :=
      sorted_key_le_last E se₂ ht2 j2 h2 j1 ((hm j1).mp (List.mem_of_mem_getLast? h1))
    have h21 : E j2 ≤ E j1 :=
      sorted_key_le_last E se₁ ht1 j1 h1 j2 ((hm j2).mpr (List.mem_of_mem_getLast? h2))
    rw [postFlag, postFlag, h1, h2]
    show decide (E j1 < MAXV) = decide (E j2 < MAXV)
    have : E j1 = E j2 := le_antisymm h12 h21
    rw [this]

/-- C7.  `Build`'s output is a deterministic function of the input arrays
alone: any two argsort permutations of the filtered indices sorted by
ascending start (resp. ascending end) — which may order tied keys
differently, as `std::sort` is free to do — produce identical breakpoint
and active-set tables. -/
theorem build_tie_order_independent (MINV MAXV : Int) (S E : ℕ → Int) (N : ℕ)
    (ss₁ ss₂ se₁ se₂ : List ℕ)
    (hp1 : ss₁.Perm (filteredIdx S E N)) (hs1 : ss₁.Sorted fun a b => S a ≤ S b)
    (hp2 : ss₂.Perm (filteredIdx S E N)) (hs2 : ss₂.Sorted fun a b => S a ≤ S b)
    (hq1 : se₁.Perm (filteredIdx S E N)) (ht1 : se₁.Sorted fun a b => E a ≤ E b)
    (hq2 : se₂.Perm (filteredIdx S E N)) (ht2 : se₂.Sorted fun a b => E a ≤ E b) :
    buildWith MINV MAXV S E ss₁ se₁ = buildWith MINV MAXV S E ss₂ se₂ := by
  have hm1 : ∀ x, x ∈ ss₁ ↔ x ∈ Fset S E N :=
    fun x => (hp1.mem_iff).trans (List.mem_toFinset).symm
  have hm2 : ∀ x, x ∈ ss₂ ↔ x ∈ Fset S E N :=
    fun x => (hp2.mem_iff).trans (List.mem_toFinset).symm
  have hn1 : ∀ x, x ∈ se₁ ↔ x ∈ Fset S E N :=
    fun x => (hq1.mem_iff).trans (List.mem_toFinset).symm
  have hn2 : ∀ x, x ∈ se₂ ↔ x ∈ Fset S E N :=
    fun x => (hq2.mem_iff).trans (List.mem_toFinset).symm
  rw [buildWith_eq MINV MAXV S E (Fset S E N) ss₁ se₁ hs1 ht1
      (hp1.nodup_iff.mpr (filteredIdx_nodup S E N)) (hq1.nodup_iff.mpr (filteredIdx_nodup S E N))
      hm1 hn1,
    buildWith_eq MINV MAXV S E (Fset S E N) ss₂ se₂ hs2 ht2
      (hp2.nodup_iff.mpr (filteredIdx_nodup S E N)) (hq2.nodup_iff.mpr (filteredIdx_nodup S E N))
      hm2 hn2,
    preFlag_eq_of_sorted_congr MINV S ss₁ ss₂ (fun x => (hm1 x).trans (hm2 x).symm) hs1 hs2,
    postFlag_eq_of_sorted_congr MAXV E se₁ se₂ (fun x => (hn1 x).trans (hn2 x).symm) ht1 ht2]

/-- Witness for `build_tie_order_independent`: two identical intervals give
tied sort keys, and the two opposite tie orders build the same tables. -/
theorem build_tie_order_independent_witness :
    buildWith intMinV intMaxV (fun _ => (0 : Int)) (fun _ => (1 : Int)) [0, 1] [0, 1] =
      buildWith intMinV intMaxV (fun _ => (0 : Int)) (fun _ => (1 : Int)) [1, 0] [1, 0] := by
  have hF : filteredIdx (fun _ => (0 : Int)) (fun _ => (1 : Int)) 2 = [0, 1] := by decide
  refine build_tie_order_independent intMinV intMaxV (fun _ => (0 : Int)) (fun _ => (1 : Int))
    2 [0, 1] [1, 0] [0, 1] [1, 0] ?_ ?_ ?_ ?_ ?_ ?_ ?_ ?_ <;>
    first
      | (rw [hF]
         first
           | exact List.Perm.refl _
           | exact List.Perm.swap 0 1 [])
      | decide

end RangeMap
